import Mathlib

/-!
Verification of the fightwords image-synthesis pipeline
(`fight_word_generator.py`): a shallow embedding of the bitmap data
model, the per-pixel geometric distortions (shear, fisheye,
perspective), the content-bounds recrop, the font-size heuristic, the
font-loading fallback chain and the orchestrating `generate` pipeline,
together with theorems settling the specified properties.

Modelling conventions:
* grayscale bitmaps are a width, a height and a row-major `List ℕ` of
  pixel values (0 = black .. 255 = white);
* Python float arithmetic is modelled exactly over `ℚ` (every IEEE
  float is a rational); `math.sqrt` forces `ℝ` in the fisheye stage;
* `int(...)` truncation toward zero is `pyInt` / `pyIntReal`;
* Python `//` floor division on possibly-negative ints is `Int.fdiv`;
* external library primitives (font loading, text drawing and
  measuring, rotation resampling, resize resampling) are oracle
  parameters: the theorems hold for every behaviour of these
  collaborators;
* the single global random generator seeded at pipeline construction
  is threaded explicitly as a state, with an abstract draw interface.
-/

/-- Python `int(q)` on an exact rational: truncation toward zero. -/
def pyInt (q : ℚ) : ℤ := q.num.tdiv q.den

/-- Python `int(r)` on a real value: truncation toward zero. -/
noncomputable def pyIntReal (r : ℝ) : ℤ := if r < 0 then ⌈r⌉ else ⌊r⌋

/-- A grayscale bitmap: pixel `(x, y)` is stored at row-major index
`y * width + x`.  Mirrors a single-channel PIL image buffer. -/
structure Img where
  width : ℕ
  height : ℕ
  data : List ℕ
deriving DecidableEq

/-- Image.getpixel on the row-major buffer (default 0 outside the buffer;
all in-contract accesses are in range). -/
def Img.getpixel (img : Img) (x y : ℕ) : ℕ :=
  img.data.getD (y * img.width + x) 0

/-- Image.putpixel on the row-major buffer. -/
def Img.putpixel (img : Img) (x y : ℕ) (v : ℕ) : Img :=
  { img with data := img.data.set (y * img.width + x) v }

/-- PIL `Image.new("L", (w, h), c)`. -/
def imageNew (w h c : ℕ) : Img :=
  ⟨w, h, List.replicate (w * h) c⟩

/-- Bitmap built from an explicit pixel function (used for the
deterministic whole-image PIL primitives crop, paste and invert). -/
def mkImg (w h : ℕ) (f : ℕ → ℕ → ℕ) : Img :=
  ⟨w, h, (List.range (w * h)).map (fun k => f (k % w) (k / w))⟩

theorem Img.putpixel_width (img : Img) (x y v : ℕ) :
    (img.putpixel x y v).width = img.width := rfl

theorem Img.putpixel_height (img : Img) (x y v : ℕ) :
    (img.putpixel x y v).height = img.height := rfl

theorem Img.putpixel_length (img : Img) (x y v : ℕ) :
    (img.putpixel x y v).data.length = img.data.length := by
  simp [Img.putpixel]

/-- Row-major flat indices of in-range coordinates are injective. -/
theorem flatIdx_inj {w x₁ y₁ x₂ y₂ : ℕ} (h₁ : x₁ < w) (h₂ : x₂ < w)
    (he : y₁ * w + x₁ = y₂ * w + x₂) : x₁ = x₂ ∧ y₁ = y₂ := by
  have hw : 0 < w := Nat.lt_of_le_of_lt (Nat.zero_le _) h₁
  have e1 : y₁ * w + x₁ = x₁ + y₁ * w := by ring
  have e2 : y₂ * w + x₂ = x₂ + y₂ * w := by ring
  have he' : x₁ + y₁ * w = x₂ + y₂ * w := by rw [← e1, ← e2]; exact he
  have hx : x₁ = x₂ := by
    have m1 : (x₁ + y₁ * w) % w = x₁ := by
      rw [Nat.add_mul_mod_self_right]
      exact Nat.mod_eq_of_lt h₁
    have m2 : (x₂ + y₂ * w) % w = x₂ := by
      rw [Nat.add_mul_mod_self_right]
      exact Nat.mod_eq_of_lt h₂
    rw [← m1, ← m2, he']
  refine ⟨hx, ?_⟩
  have d1 : (x₁ + y₁ * w) / w = y₁ := by
    rw [Nat.add_mul_div_right _ _ hw, Nat.div_eq_of_lt h₁]; omega
  have d2 : (x₂ + y₂ * w) / w = y₂ := by
    rw [Nat.add_mul_div_right _ _ hw, Nat.div_eq_of_lt h₂]; omega
  rw [← d1, ← d2, he']

theorem Img.getpixel_putpixel_self (img : Img) (x y v : ℕ)
    (h : y * img.width + x < img.data.length) :
    (img.putpixel x y v).getpixel x y = v := by
  simp [Img.getpixel, Img.putpixel, List.getD, List.getElem?_set_self, h]

theorem Img.getpixel_putpixel_ne (img : Img) {x y x₂ y₂ : ℕ} (v : ℕ)
    (h : y₂ * img.width + x₂ ≠ y * img.width + x) :
    (img.putpixel x y v).getpixel x₂ y₂ = img.getpixel x₂ y₂ := by
  simp only [Img.getpixel, Img.putpixel, List.getD, List.get?_eq_getElem?]
  rw [List.getElem?_set_ne (by omega)]

theorem imageNew_width (w h c : ℕ) : (imageNew w h c).width = w := rfl

theorem imageNew_height (w h c : ℕ) : (imageNew w h c).height = h := rfl

theorem imageNew_length (w h c : ℕ) : (imageNew w h c).data.length = w * h := by
  simp [imageNew]

theorem imageNew_get {w h x y : ℕ} (c : ℕ) (hx : x < w) (hy : y < h) :
    (imageNew w h c).getpixel x y = c := by
  have hlt : y * w + x < w * h := by
    calc y * w + x < y * w + w := by omega
    _ = (y + 1) * w := by ring
    _ ≤ h * w := Nat.mul_le_mul_right w (by omega)
    _ = w * h := Nat.mul_comm h w
  simp [imageNew, Img.getpixel, List.getD, List.getElem?_replicate, hlt]

theorem mkImg_width (w h : ℕ) (f : ℕ → ℕ → ℕ) : (mkImg w h f).width = w := rfl

theorem mkImg_height (w h : ℕ) (f : ℕ → ℕ → ℕ) : (mkImg w h f).height = h := rfl

theorem mkImg_length (w h : ℕ) (f : ℕ → ℕ → ℕ) :
    (mkImg w h f).data.length = w * h := by
  simp [mkImg]

theorem mkImg_get {w h x y : ℕ} (f : ℕ → ℕ → ℕ) (hx : x < w) (hy : y < h) :
    (mkImg w h f).getpixel x y = f x y := by
  have hw : 0 < w := Nat.lt_of_le_of_lt (Nat.zero_le _) hx
  have hlt : y * w + x < w * h := by
    calc y * w + x < y * w + w := by omega
    _ = (y + 1) * w := by ring
    _ ≤ h * w := Nat.mul_le_mul_right w (by omega)
    _ = w * h := Nat.mul_comm h w
  have hmod : (y * w + x) % w = x := by
    have : y * w + x = x + y * w := by ring
    rw [this, Nat.add_mul_mod_self_right, Nat.mod_eq_of_lt hx]
  have hdiv : (y * w + x) / w = y := by
    have : y * w + x = x + y * w := by ring
    rw [this, Nat.add_mul_div_right _ _ hw, Nat.div_eq_of_lt hx]; omega
  simp only [mkImg, Img.getpixel, List.getD, List.get?_eq_getElem?]
  rw [List.getElem?_map, List.getElem?_range hlt]
  simp [hmod, hdiv]

/-! Inverse-mapping loop machinery: the distortions all run
`for y in range(height): for x in range(width):` over destination
pixels, writing `putpixel((x, y), v)` when the body produces a value.
`writePixel` is one loop body, `rowFill` the inner loop, `fillLoop`
the full double loop. -/

/-- One iteration of a per-destination-pixel loop: write the produced
value, if any, at destination `(x, y)`. -/
def writePixel (f : ℕ → ℕ → Option ℕ) (y x : ℕ) (d : Img) : Img :=
  match f x y with
  | some v => d.putpixel x y v
  | none => d

/-- The inner `for x in range(n)` loop at row `y`. -/
def rowFill (f : ℕ → ℕ → Option ℕ) (y n : ℕ) (d : Img) : Img :=
  (List.range n).foldl (fun d x => writePixel f y x d) d

/-- The outer `for y in range(h)` loop, each row scanning `w` columns. -/
def fillLoop (f : ℕ → ℕ → Option ℕ) (w h : ℕ) (init : Img) : Img :=
  (List.range h).foldl (fun d y => rowFill f y w d) init

theorem writePixel_width (f : ℕ → ℕ → Option ℕ) (y x : ℕ) (d : Img) :
    (writePixel f y x d).width = d.width := by
  unfold writePixel; cases f x y <;> rfl

theorem writePixel_height (f : ℕ → ℕ → Option ℕ) (y x : ℕ) (d : Img) :
    (writePixel f y x d).height = d.height := by
  unfold writePixel; cases f x y <;> rfl

theorem writePixel_length (f : ℕ → ℕ → Option ℕ) (y x : ℕ) (d : Img) :
    (writePixel f y x d).data.length = d.data.length := by
  unfold writePixel; cases f x y
  · rfl
  · simp [Img.putpixel]

theorem rowFill_width (f : ℕ → ℕ → Option ℕ) (y n : ℕ) (d : Img) :
    (rowFill f y n d).width = d.width := by
  induction n with
  | zero => rfl
  | succ m ih =>
      unfold rowFill
      rw [List.range_succ, List.foldl_append]
      show (writePixel f y m (rowFill f y m d)).width = d.width
      rw [writePixel_width]; exact ih

theorem rowFill_height (f : ℕ → ℕ → Option ℕ) (y n : ℕ) (d : Img) :
    (rowFill f y n d).height = d.height := by
  induction n with
  | zero => rfl
  | succ m ih =>
      unfold rowFill
      rw [List.range_succ, List.foldl_append]
      show (writePixel f y m (rowFill f y m d)).height = d.height
      rw [writePixel_height]; exact ih

theorem rowFill_length (f : ℕ → ℕ → Option ℕ) (y n : ℕ) (d : Img) :
    (rowFill f y n d).data.length = d.data.length := by
  induction n with
  | zero => rfl
  | succ m ih =>
      unfold rowFill
      rw [List.range_succ, List.foldl_append]
      show (writePixel f y m (rowFill f y m d)).data.length = d.data.length
      rw [writePixel_length]; exact ih

theorem fillLoop_width (f : ℕ → ℕ → Option ℕ) (w h : ℕ) (init : Img) :
    (fillLoop f w h init).width = init.width := by
  induction h with
  | zero => rfl
  | succ m ih =>
      unfold fillLoop
      rw [List.range_succ, List.foldl_append]
      show (rowFill f m w (fillLoop f w m init)).width = init.width
      rw [rowFill_width]; exact ih

theorem fillLoop_height (f : ℕ → ℕ → Option ℕ) (w h : ℕ) (init : Img) :
    (fillLoop f w h init).height = init.height := by
  induction h with
  | zero => rfl
  | succ m ih =>
      unfold fillLoop
      rw [List.range_succ, List.foldl_append]
      show (rowFill f m w (fillLoop f w m init)).height = init.height
      rw [rowFill_height]; exact ih

theorem fillLoop_length (f : ℕ → ℕ → Option ℕ) (w h : ℕ) (init : Img) :
    (fillLoop f w h init).data.length = init.data.length := by
  induction h with
  | zero => rfl
  | succ m ih =>
      unfold fillLoop
      rw [List.range_succ, List.foldl_append]
      show (rowFill f m w (fillLoop f w m init)).data.length = init.data.length
      rw [rowFill_length]; exact ih

/-- Writes at columns below `n` of row `y` do not touch an in-range
destination outside that region. -/
theorem rowFill_get_outside (f : ℕ → ℕ → Option ℕ) (y n : ℕ) (d : Img)
    {x₂ y₂ : ℕ} (hn : n ≤ d.width) (hx₂ : x₂ < d.width)
    (hcase : y₂ ≠ y ∨ n ≤ x₂) :
    (rowFill f y n d).getpixel x₂ y₂ = d.getpixel x₂ y₂ := by
  induction n with
  | zero => rfl
  | succ m ih =>
      unfold rowFill
      rw [List.range_succ, List.foldl_append]
      show (writePixel f y m (rowFill f y m d)).getpixel x₂ y₂ = d.getpixel x₂ y₂
      have hm : m ≤ d.width := by omega
      have hcase' : y₂ ≠ y ∨ m ≤ x₂ := by
        rcases hcase with h | h
        · exact Or.inl h
        · exact Or.inr (by omega)
      have hrec := ih hm hcase'
      unfold writePixel
      cases hfm : f m y with
      | none => exact hrec
      | some v =>
          rw [Img.getpixel_putpixel_ne _ v ?hne]
          · exact hrec
          case hne =>
            rw [rowFill_width]
            intro he
            have := flatIdx_inj hx₂ (show m < d.width by omega) he
            rcases hcase with h | h
            · exact h this.2
            · omega

/-- After scanning the first `n` columns of row `y`, a destination in
that region holds the loop-body value (or the initial value when the
body wrote nothing). -/
theorem rowFill_get_at (f : ℕ → ℕ → Option ℕ) (y n : ℕ) (d : Img)
    {x : ℕ} (hn : n ≤ d.width) (hx : x < n)
    (hlen : y * d.width + x < d.data.length) :
    (rowFill f y n d).getpixel x y = (f x y).getD (d.getpixel x y) := by
  induction n with
  | zero => omega
  | succ m ih =>
      unfold rowFill
      rw [List.range_succ, List.foldl_append]
      show (writePixel f y m (rowFill f y m d)).getpixel x y
        = (f x y).getD (d.getpixel x y)
      by_cases hxm : x < m
      · have hrec := ih (by omega) hxm
        unfold writePixel
        cases hfm : f m y with
        | none => exact hrec
        | some v =>
            rw [Img.getpixel_putpixel_ne _ v ?hne2]
            · exact hrec
            case hne2 =>
              rw [rowFill_width]
              intro he
              have := flatIdx_inj (show x < d.width by omega)
                (show m < d.width by omega) he
              omega
      · have hxeq : x = m := by omega
        subst hxeq
        have huntouched := @rowFill_get_outside f y x d x y
          (show x ≤ d.width by omega) (show x < d.width by omega)
          (Or.inr le_rfl)
        unfold writePixel
        cases hfm : f x y with
        | none => simpa [hfm] using huntouched
        | some v =>
            rw [Img.getpixel_putpixel_self]
            · simp
            · rw [rowFill_width, rowFill_length]
              exact hlen

/-- Rows below `m` do not touch an in-range destination at row `≥ m`. -/
theorem fillLoop_get_outside (f : ℕ → ℕ → Option ℕ) (w m : ℕ) (init : Img)
    {x₂ y₂ : ℕ} (hw : w ≤ init.width) (hx₂ : x₂ < init.width)
    (hy₂ : m ≤ y₂) :
    (fillLoop f w m init).getpixel x₂ y₂ = init.getpixel x₂ y₂ := by
  induction m with
  | zero => rfl
  | succ k ih =>
      unfold fillLoop
      rw [List.range_succ, List.foldl_append]
      show (rowFill f k w (fillLoop f w k init)).getpixel x₂ y₂
        = init.getpixel x₂ y₂
      rw [rowFill_get_outside f k w _ (by rw [fillLoop_width]; exact hw)
        (by rw [fillLoop_width]; exact hx₂) (Or.inl (by omega))]
      exact ih (by omega)

/-- Main characterization of the destination-pixel double loop: each
in-range destination holds the value its own iteration produced, or
the initial pixel when the body wrote nothing there. -/
theorem fillLoop_get (f : ℕ → ℕ → Option ℕ) (w h : ℕ) (init : Img)
    {x y : ℕ} (hx : x < w) (hy : y < h) (hW : init.width = w)
    (hlen : y * w + x < init.data.length) :
    (fillLoop f w h init).getpixel x y = (f x y).getD (init.getpixel x y) := by
  induction h with
  | zero => omega
  | succ m ih =>
      unfold fillLoop
      rw [List.range_succ, List.foldl_append]
      show (rowFill f m w (fillLoop f w m init)).getpixel x y
        = (f x y).getD (init.getpixel x y)
      by_cases hym : y < m
      · rw [rowFill_get_outside f m w _ (by rw [fillLoop_width]; omega)
          (by rw [fillLoop_width]; omega) (Or.inl (by omega))]
        exact ih hym
      · have hyeq : y = m := by omega
        subst hyeq
        rw [rowFill_get_at f y w _ (by rw [fillLoop_width]; omega) hx
          (by rw [fillLoop_width, fillLoop_length, hW]; exact hlen)]
        rw [fillLoop_get_outside f w y init (by omega) (by omega) le_rfl]

/-! The three geometric distortions of `ImageDistorter`, with the
randomly drawn parameters made explicit arguments (the drawing
wrappers appear further below with the random-source interface). -/

/-- ImageDistorter.apply_shear with the two drawn shear factors
explicit.  Destination `(x, y)` takes the source pixel at
`(int(x - shear_x*y), int(y - shear_y*x))` when that lies in bounds,
and keeps the background 255 of the fresh output canvas otherwise. -/
def apply_shear_with (shear_x shear_y : ℚ) (image : Img) : Img :=
  fillLoop
    (fun x y =>
      let src_x : ℤ := pyInt ((x : ℚ) - shear_x * (y : ℚ))
      let src_y : ℤ := pyInt ((y : ℚ) - shear_y * (x : ℚ))
      if 0 ≤ src_x ∧ src_x < (image.width : ℤ) ∧ 0 ≤ src_y ∧ src_y < (image.height : ℤ)
      then some (image.getpixel src_x.toNat src_y.toNat)
      else none)
    image.width image.height (imageNew image.width image.height 255)

open Classical in
/-- ImageDistorter.apply_fisheye with the drawn center and strength
explicit.  The per-pixel body mirrors the source: default to the
destination pixel of the input; inside the effective radius, copy the
in-bounds bulge source, falling back to the destination pixel itself.
Float `math.sqrt` arithmetic is modelled over `ℝ`. -/
noncomputable def apply_fisheye_with (center_x center_y : ℤ) (strength : ℚ)
    (image : Img) : Img :=
  fillLoop
    (fun x y =>
      let dx : ℤ := (x : ℤ) - center_x
      let dy : ℤ := (y : ℤ) - center_y
      let dist : ℝ := Real.sqrt ((dx * dx + dy * dy : ℤ) : ℝ)
      let max_radius : ℝ := (min image.width image.height : ℕ) * (7 / 10 : ℝ)
      some (if dist < max_radius ∧ 0 < dist then
        let factor : ℝ := 1 + (strength : ℝ) * (1 - dist / max_radius)
        let src_x : ℤ := pyIntReal ((center_x : ℝ) + (dx : ℝ) / factor)
        let src_y : ℤ := pyIntReal ((center_y : ℝ) + (dy : ℝ) / factor)
        if 0 ≤ src_x ∧ src_x < (image.width : ℤ) ∧ 0 ≤ src_y ∧ src_y < (image.height : ℤ)
        then image.getpixel src_x.toNat src_y.toNat
        else image.getpixel x y
      else image.getpixel x y))
    image.width image.height (imageNew image.width image.height 255)

/-- ImageDistorter.apply_perspective with the drawn stretch factor and
anchor edge explicit (the edge is the drawn string, as in the source).
Per destination pixel, one source coordinate is remapped through the
per-row or per-column factor, the other kept; in-bounds sources are
copied, anything else keeps the background 255 of the output canvas. -/
def apply_perspective_with (stretch_factor : ℚ) (corner : String)
    (image : Img) : Img :=
  fillLoop
    (fun x y =>
      let w := image.width
      let h := image.height
      let src : ℤ × ℤ :=
        if corner = ("top" : String) then
          let factor : ℚ := 1 + stretch_factor * (1 - (y : ℚ) / (h : ℚ))
          (pyInt ((x : ℚ) / factor + ((w : ℚ) * (factor - 1)) / (2 * factor)), (y : ℤ))
        else if corner = ("bottom" : String) then
          let factor : ℚ := 1 + stretch_factor * ((y : ℚ) / (h : ℚ))
          (pyInt ((x : ℚ) / factor + ((w : ℚ) * (factor - 1)) / (2 * factor)), (y : ℤ))
        else if corner = ("left" : String) then
          let factor : ℚ := 1 + stretch_factor * (1 - (x : ℚ) / (w : ℚ))
          ((x : ℤ), pyInt ((y : ℚ) / factor + ((h : ℚ) * (factor - 1)) / (2 * factor)))
        else
          let factor : ℚ := 1 + stretch_factor * ((x : ℚ) / (w : ℚ))
          ((x : ℤ), pyInt ((y : ℚ) / factor + ((h : ℚ) * (factor - 1)) / (2 * factor)))
      if 0 ≤ src.1 ∧ src.1 < (image.width : ℤ) ∧ 0 ≤ src.2 ∧ src.2 < (image.height : ℤ)
      then some (image.getpixel src.1.toNat src.2.toNat)
      else none)
    image.width image.height (imageNew image.width image.height 255)

/-- In-range coordinates have in-range row-major flat index. -/
theorem flat_lt {w h x y : ℕ} (hx : x < w) (hy : y < h) :
    y * w + x < w * h := by
  calc y * w + x < y * w + w := by omega
  _ = (y + 1) * w := by ring
  _ ≤ h * w := Nat.mul_le_mul_right w (by omega)
  _ = w * h := Nat.mul_comm h w

/-- C3: in the shear distortion, every destination pixel `(x, y)` of a
W by H input takes the source pixel at
`(int(x - shear_x*y), int(y - shear_y*x))` (truncation toward zero)
when that source is in bounds, and the background value 255 otherwise;
the output dimensions equal the input dimensions. -/
theorem shear_pixel_mapping (image : Img) (shear_x shear_y : ℚ) (x y : ℕ)
    (hsx₁ : -(1/4) ≤ shear_x) (hsx₂ : shear_x ≤ 1/4)
    (hsy₁ : -(3/20) ≤ shear_y) (hsy₂ : shear_y ≤ 3/20)
    (hx : x < image.width) (hy : y < image.height) :
    (apply_shear_with shear_x shear_y image).width = image.width ∧
    (apply_shear_with shear_x shear_y image).height = image.height ∧
    (apply_shear_with shear_x shear_y image).getpixel x y =
      (if 0 ≤ pyInt ((x : ℚ) - shear_x * (y : ℚ)) ∧
          pyInt ((x : ℚ) - shear_x * (y : ℚ)) < (image.width : ℤ) ∧
          0 ≤ pyInt ((y : ℚ) - shear_y * (x : ℚ)) ∧
          pyInt ((y : ℚ) - shear_y * (x : ℚ)) < (image.height : ℤ)
        then image.getpixel (pyInt ((x : ℚ) - shear_x * (y : ℚ))).toNat
          (pyInt ((y : ℚ) - shear_y * (x : ℚ))).toNat
        else 255) := by
  refine ⟨?_, ?_, ?_⟩
  · rw [apply_shear_with, fillLoop_width, imageNew_width]
  · rw [apply_shear_with, fillLoop_height, imageNew_height]
  · rw [apply_shear_with, fillLoop_get _ _ _ _ hx hy (imageNew_width _ _ _)
      (by rw [imageNew_length]; exact flat_lt hx hy)]
    by_cases hc : 0 ≤ pyInt ((x : ℚ) - shear_x * (y : ℚ)) ∧
        pyInt ((x : ℚ) - shear_x * (y : ℚ)) < (image.width : ℤ) ∧
        0 ≤ pyInt ((y : ℚ) - shear_y * (x : ℚ)) ∧
        pyInt ((y : ℚ) - shear_y * (x : ℚ)) < (image.height : ℤ)
    · rw [if_pos hc]
      simp only [if_pos hc, Option.getD_some]
    · rw [if_neg hc]
      simp only [if_neg hc, Option.getD_none]
      exact imageNew_get 255 hx hy

/-- Witness for C3: concrete one-pixel image, zero shear factors; the
destination copies the in-bounds source pixel. -/
theorem shear_pixel_mapping_witness :
    (apply_shear_with 0 0 ⟨1, 1, [7]⟩).getpixel 0 0 = 7 ∧
    (apply_shear_with 0 0 ⟨1, 1, [7]⟩).width = 1 := by
  obtain ⟨hw, hh, hp⟩ := shear_pixel_mapping ⟨1, 1, [7]⟩ 0 0 0 0
    (by norm_num) (by norm_num) (by norm_num) (by norm_num)
    (by decide) (by decide)
  refine ⟨?_, hw⟩
  have h0 : pyInt (((0 : ℕ) : ℚ) - 0 * ((0 : ℕ) : ℚ)) = 0 := by
    norm_num [pyInt]
  rw [hp, h0]
  norm_num
  rfl

/-! Content-bounds scan of `WordGenerator.get_content_bounds`: a
row-major traversal accumulating the min/max coordinates of pixels
strictly below the background value 255. -/

/-- All destination coordinates of a `w` by `h` bitmap in row-major
traversal order. -/
def allPts (w h : ℕ) : List (ℕ × ℕ) :=
  (List.range h).flatMap (fun y => (List.range w).map (fun x => (x, y)))

/-- Accumulated bounds state `(left, top, right, bottom)` of the scan. -/
structure Bnds where
  left : ℕ
  top : ℕ
  right : ℕ
  bottom : ℕ
deriving DecidableEq

/-- One step of the content scan: a non-white pixel widens the bounds. -/
def scanStep (img : Img) (s : Bnds) (p : ℕ × ℕ) : Bnds :=
  if img.getpixel p.1 p.2 < 255 then
    ⟨min s.left p.1, min s.top p.2, max s.right p.1, max s.bottom p.2⟩
  else s

/-- The coordinates of a traversal that hold content (pixel < 255). -/
def contentPts (img : Img) (L : List (ℕ × ℕ)) : List (ℕ × ℕ) :=
  L.filter (fun p => img.getpixel p.1 p.2 < 255)

/-- The full scan of `get_content_bounds`, starting from
`(width, height, 0, 0)` as in the source. -/
def scanBounds (img : Img) : Bnds :=
  (allPts img.width img.height).foldl (scanStep img) ⟨img.width, img.height, 0, 0⟩

/-- WordGenerator.get_content_bounds: scan for non-white content; when
the scan leaves `left ≥ right` or `top ≥ bottom`, fall back to the
whole-image box; otherwise return the exclusive box
`(left, top, right+1, bottom+1)`. -/
def get_content_bounds (img : Img) : ℕ × ℕ × ℕ × ℕ :=
  let s := scanBounds img
  if s.right ≤ s.left ∨ s.bottom ≤ s.top then (0, 0, img.width, img.height)
  else (s.left, s.top, s.right + 1, s.bottom + 1)

theorem mem_allPts {w h : ℕ} (p : ℕ × ℕ) :
    p ∈ allPts w h ↔ p.1 < w ∧ p.2 < h := by
  constructor
  · intro hp
    simp only [allPts, List.mem_flatMap, List.mem_map, List.mem_range] at hp
    obtain ⟨y, hy, x, hx, he⟩ := hp
    rw [← he]
    exact ⟨hx, hy⟩
  · intro ⟨h1, h2⟩
    simp only [allPts, List.mem_flatMap, List.mem_map, List.mem_range]
    exact ⟨p.2, h2, p.1, h1, rfl⟩

theorem mem_contentPts {img : Img} {L : List (ℕ × ℕ)} {p : ℕ × ℕ} :
    p ∈ contentPts img L ↔ p ∈ L ∧ img.getpixel p.1 p.2 < 255 := by
  simp [contentPts, List.mem_filter]

theorem scan_foldl_left (img : Img) (L : List (ℕ × ℕ)) (s : Bnds) :
    (L.foldl (scanStep img) s).left
      = ((contentPts img L).map Prod.fst).foldl min s.left := by
  induction L generalizing s with
  | nil => rfl
  | cons p l ih =>
      by_cases hc : img.getpixel p.1 p.2 < 255
      · simp only [List.foldl_cons, contentPts, List.filter_cons,
          decide_eq_true hc, List.map_cons, ih, scanStep, if_pos hc]
        rfl
      · simp only [List.foldl_cons, contentPts, List.filter_cons,
          decide_eq_false hc, List.map_cons, ih, scanStep, if_neg hc]
        rfl

theorem scan_foldl_top (img : Img) (L : List (ℕ × ℕ)) (s : Bnds) :
    (L.foldl (scanStep img) s).top
      = ((contentPts img L).map Prod.snd).foldl min s.top := by
  induction L generalizing s with
  | nil => rfl
  | cons p l ih =>
      by_cases hc : img.getpixel p.1 p.2 < 255
      · simp only [List.foldl_cons, contentPts, List.filter_cons,
          decide_eq_true hc, List.map_cons, ih, scanStep, if_pos hc]
        rfl
      · simp only [List.foldl_cons, contentPts, List.filter_cons,
          decide_eq_false hc, List.map_cons, ih, scanStep, if_neg hc]
        rfl

theorem scan_foldl_right (img : Img) (L : List (ℕ × ℕ)) (s : Bnds) :
    (L.foldl (scanStep img) s).right
      = ((contentPts img L).map Prod.fst).foldl max s.right := by
  induction L generalizing s with
  | nil => rfl
  | cons p l ih =>
      by_cases hc : img.getpixel p.1 p.2 < 255
      · simp only [List.foldl_cons, contentPts, List.filter_cons,
          decide_eq_true hc, List.map_cons, ih, scanStep, if_pos hc]
        rfl
      · simp only [List.foldl_cons, contentPts, List.filter_cons,
          decide_eq_false hc, List.map_cons, ih, scanStep, if_neg hc]
        rfl

theorem scan_foldl_bottom (img : Img) (L : List (ℕ × ℕ)) (s : Bnds) :
    (L.foldl (scanStep img) s).bottom
      = ((contentPts img L).map Prod.snd).foldl max s.bottom := by
  induction L generalizing s with
  | nil => rfl
  | cons p l ih =>
      by_cases hc : img.getpixel p.1 p.2 < 255
      · simp only [List.foldl_cons, contentPts, List.filter_cons,
          decide_eq_true hc, List.map_cons, ih, scanStep, if_pos hc]
        rfl
      · simp only [List.foldl_cons, contentPts, List.filter_cons,
          decide_eq_false hc, List.map_cons, ih, scanStep, if_neg hc]
        rfl

theorem foldl_min_le_init (xs : List ℕ) (a : ℕ) : xs.foldl min a ≤ a := by
  induction xs generalizing a with
  | nil => exact le_rfl
  | cons x l ih => exact le_trans (ih (min a x)) (min_le_left a x)

theorem foldl_min_le_mem (xs : List ℕ) (a : ℕ) :
    ∀ x ∈ xs, xs.foldl min a ≤ x := by
  induction xs generalizing a with
  | nil => intro x hx; cases hx
  | cons z l ih =>
      intro x hx
      rcases List.mem_cons.mp hx with h | h
      · subst h
        exact le_trans (foldl_min_le_init l (min a x)) (min_le_right a x)
      · exact ih (min a z) x h

theorem foldl_min_cases (xs : List ℕ) (a : ℕ) :
    xs.foldl min a = a ∨ xs.foldl min a ∈ xs := by
  induction xs generalizing a with
  | nil => exact Or.inl rfl
  | cons z l ih =>
      have hfold : (z :: l).foldl min a = l.foldl min (min a z) := rfl
      rcases ih (min a z) with h | h
      · rcases min_choice a z with hm | hm
        · exact Or.inl (by rw [hfold, h, hm])
        · exact Or.inr (by rw [hfold, h, hm]; exact List.mem_cons_self z l)
      · exact Or.inr (by rw [hfold]; exact List.mem_cons_of_mem z h)

theorem foldl_max_ge_init (xs : List ℕ) (a : ℕ) : a ≤ xs.foldl max a := by
  induction xs generalizing a with
  | nil => exact le_rfl
  | cons x l ih => exact le_trans (le_max_left a x) (ih (max a x))

theorem foldl_max_ge_mem (xs : List ℕ) (a : ℕ) :
    ∀ x ∈ xs, x ≤ xs.foldl max a := by
  induction xs generalizing a with
  | nil => intro x hx; cases hx
  | cons z l ih =>
      intro x hx
      rcases List.mem_cons.mp hx with h | h
      · subst h
        exact le_trans (le_max_right a x) (foldl_max_ge_init l (max a x))
      · exact ih (max a z) x h

theorem foldl_max_cases (xs : List ℕ) (a : ℕ) :
    xs.foldl max a = a ∨ xs.foldl max a ∈ xs := by
  induction xs generalizing a with
  | nil => exact Or.inl rfl
  | cons z l ih =>
      have hfold : (z :: l).foldl max a = l.foldl max (max a z) := rfl
      rcases ih (max a z) with h | h
      · rcases max_choice a z with hm | hm
        · exact Or.inl (by rw [hfold, h, hm])
        · exact Or.inr (by rw [hfold, h, hm]; exact List.mem_cons_self z l)
      · exact Or.inr (by rw [hfold]; exact List.mem_cons_of_mem z h)

theorem bnds_eq {s₁ s₂ : Bnds} (h1 : s₁.left = s₂.left) (h2 : s₁.top = s₂.top)
    (h3 : s₁.right = s₂.right) (h4 : s₁.bottom = s₂.bottom) : s₁ = s₂ := by
  cases s₁; cases s₂; simp_all

/-- Every content pixel is inside the scanned bounds. -/
theorem scanBounds_bounds {img : Img} {x y : ℕ} (hx : x < img.width)
    (hy : y < img.height) (hc : img.getpixel x y < 255) :
    (scanBounds img).left ≤ x ∧ (scanBounds img).top ≤ y ∧
    x ≤ (scanBounds img).right ∧ y ≤ (scanBounds img).bottom := by
  have hmem : (x, y) ∈ contentPts img (allPts img.width img.height) :=
    mem_contentPts.2 ⟨(mem_allPts _).2 ⟨hx, hy⟩, hc⟩
  refine ⟨?_, ?_, ?_, ?_⟩
  · rw [scanBounds, scan_foldl_left]
    exact foldl_min_le_mem _ _ x (List.mem_map.2 ⟨(x, y), hmem, rfl⟩)
  · rw [scanBounds, scan_foldl_top]
    exact foldl_min_le_mem _ _ y (List.mem_map.2 ⟨(x, y), hmem, rfl⟩)
  · rw [scanBounds, scan_foldl_right]
    exact foldl_max_ge_mem _ _ x (List.mem_map.2 ⟨(x, y), hmem, rfl⟩)
  · rw [scanBounds, scan_foldl_bottom]
    exact foldl_max_ge_mem _ _ y (List.mem_map.2 ⟨(x, y), hmem, rfl⟩)

theorem scanBounds_left_cases (img : Img) :
    (scanBounds img).left = img.width ∨
    ∃ x y, x < img.width ∧ y < img.height ∧ img.getpixel x y < 255 ∧
      (scanBounds img).left = x := by
  rw [scanBounds, scan_foldl_left]
  rcases foldl_min_cases ((contentPts img (allPts img.width img.height)).map
    Prod.fst) (Bnds.left ⟨img.width, img.height, 0, 0⟩) with h | h
  · exact Or.inl h
  · right
    obtain ⟨p, hp, he⟩ := List.mem_map.1 h
    obtain ⟨hmem, hpix⟩ := mem_contentPts.1 hp
    obtain ⟨h1, h2⟩ := (mem_allPts _).1 hmem
    exact ⟨p.1, p.2, h1, h2, hpix, he.symm⟩

theorem scanBounds_top_cases (img : Img) :
    (scanBounds img).top = img.height ∨
    ∃ x y, x < img.width ∧ y < img.height ∧ img.getpixel x y < 255 ∧
      (scanBounds img).top = y := by
  rw [scanBounds, scan_foldl_top]
  rcases foldl_min_cases ((contentPts img (allPts img.width img.height)).map
    Prod.snd) (Bnds.top ⟨img.width, img.height, 0, 0⟩) with h | h
  · exact Or.inl h
  · right
    obtain ⟨p, hp, he⟩ := List.mem_map.1 h
    obtain ⟨hmem, hpix⟩ := mem_contentPts.1 hp
    obtain ⟨h1, h2⟩ := (mem_allPts _).1 hmem
    exact ⟨p.1, p.2, h1, h2, hpix, he.symm⟩

theorem scanBounds_right_cases (img : Img) :
    (scanBounds img).right = 0 ∨
    ∃ x y, x < img.width ∧ y < img.height ∧ img.getpixel x y < 255 ∧
      (scanBounds img).right = x := by
  rw [scanBounds, scan_foldl_right]
  rcases foldl_max_cases ((contentPts img (allPts img.width img.height)).map
    Prod.fst) (Bnds.right ⟨img.width, img.height, 0, 0⟩) with h | h
  · exact Or.inl h
  · right
    obtain ⟨p, hp, he⟩ := List.mem_map.1 h
    obtain ⟨hmem, hpix⟩ := mem_contentPts.1 hp
    obtain ⟨h1, h2⟩ := (mem_allPts _).1 hmem
    exact ⟨p.1, p.2, h1, h2, hpix, he.symm⟩

theorem scanBounds_bottom_cases (img : Img) :
    (scanBounds img).bottom = 0 ∨
    ∃ x y, x < img.width ∧ y < img.height ∧ img.getpixel x y < 255 ∧
      (scanBounds img).bottom = y := by
  rw [scanBounds, scan_foldl_bottom]
  rcases foldl_max_cases ((contentPts img (allPts img.width img.height)).map
    Prod.snd) (Bnds.bottom ⟨img.width, img.height, 0, 0⟩) with h | h
  · exact Or.inl h
  · right
    obtain ⟨p, hp, he⟩ := List.mem_map.1 h
    obtain ⟨hmem, hpix⟩ := mem_contentPts.1 hp
    obtain ⟨h1, h2⟩ := (mem_allPts _).1 hmem
    exact ⟨p.1, p.2, h1, h2, hpix, he.symm⟩

/-- With no content pixel, the scan returns its initial state. -/
theorem scanBounds_of_no_content (img : Img)
    (hno : ∀ x, x < img.width → ∀ y, y < img.height → 255 ≤ img.getpixel x y) :
    scanBounds img = ⟨img.width, img.height, 0, 0⟩ := by
  have hempty : contentPts img (allPts img.width img.height) = [] := by
    rw [contentPts, List.filter_eq_nil]
    intro p hp
    obtain ⟨h1, h2⟩ := (mem_allPts p).1 hp
    simpa using Nat.not_lt.2 (hno p.1 h1 p.2 h2)
  have h1 := scan_foldl_left img (allPts img.width img.height)
    ⟨img.width, img.height, 0, 0⟩
  have h2 := scan_foldl_top img (allPts img.width img.height)
    ⟨img.width, img.height, 0, 0⟩
  have h3 := scan_foldl_right img (allPts img.width img.height)
    ⟨img.width, img.height, 0, 0⟩
  have h4 := scan_foldl_bottom img (allPts img.width img.height)
    ⟨img.width, img.height, 0, 0⟩
  rw [hempty] at h1 h2 h3 h4
  exact bnds_eq h1 h2 h3 h4

/-- When the scan found content spanning at least two columns and two
rows, `get_content_bounds` takes the non-degenerate branch. -/
theorem gcb_of_spanning (img : Img)
    (hlr : (scanBounds img).left < (scanBounds img).right)
    (htb : (scanBounds img).top < (scanBounds img).bottom) :
    get_content_bounds img = ((scanBounds img).left, (scanBounds img).top,
      (scanBounds img).right + 1, (scanBounds img).bottom + 1) := by
  simp only [get_content_bounds]
  rw [if_neg]
  intro hcond
  rcases hcond with h | h <;> omega

/-- C10: for every bitmap with positive dimensions,
`get_content_bounds` returns a box `(l, t, r, b)` with
`0 ≤ l < r ≤ width` and `0 ≤ t < b ≤ height`, so the crop taken in
`scale_to_target` always has strictly positive width and height and
the scale-factor divisions never divide by zero. -/
theorem content_bounds_safe (img : Img) (hw : 0 < img.width)
    (hh : 0 < img.height) :
    ∀ l t r b, get_content_bounds img = (l, t, r, b) →
      l < r ∧ r ≤ img.width ∧ t < b ∧ b ≤ img.height ∧
      0 < r - l ∧ 0 < b - t := by
  intro l t r b he
  by_cases hc : (scanBounds img).right ≤ (scanBounds img).left ∨
      (scanBounds img).bottom ≤ (scanBounds img).top
  · have hg : get_content_bounds img = (0, 0, img.width, img.height) := by
      simp only [get_content_bounds]
      rw [if_pos hc]
    rw [hg] at he
    simp only [Prod.mk.injEq] at he
    obtain ⟨e1, e2, e3, e4⟩ := he
    omega
  · push_neg at hc
    have hg := gcb_of_spanning img hc.1 hc.2
    rw [hg] at he
    simp only [Prod.mk.injEq] at he
    obtain ⟨e1, e2, e3, e4⟩ := he
    have hr : (scanBounds img).right + 1 ≤ img.width := by
      rcases scanBounds_right_cases img with h0 | ⟨x, y, hx, hy, hp, hattained⟩
      · omega
      · omega
    have hb : (scanBounds img).bottom + 1 ≤ img.height := by
      rcases scanBounds_bottom_cases img with h0 | ⟨x, y, hx, hy, hp, hattained⟩
      · omega
      · omega
    omega

/-- Witness for C10: a single-pixel image with content; the returned
box is the whole image and satisfies all the bounds. -/
theorem content_bounds_safe_witness :
    get_content_bounds (Img.mk 1 1 [0]) = (0, 0, 1, 1) ∧
    (0 < 1 ∧ 1 ≤ (Img.mk 1 1 [0]).width ∧ 0 < 1 ∧
      1 ≤ (Img.mk 1 1 [0]).height ∧ 0 < 1 - 0 ∧ 0 < 1 - 0) :=
  ⟨by decide, content_bounds_safe (Img.mk 1 1 [0]) (by decide) (by decide)
    0 0 1 1 (by decide)⟩

/-- C7 (amended): `get_content_bounds` returns the whole-image box
when no pixel is strictly below 255; whenever the content spans at
least two distinct columns and two distinct rows, it returns the tight
bounding box of the content: every content pixel lies inside the box
and each of the four edges is attained by a content pixel; and when
content exists but lies entirely in a single column or entirely in a
single row, it returns the whole-image box as well. -/
theorem content_bounds_amended (img : Img) :
    ((∀ x, x < img.width → ∀ y, y < img.height → 255 ≤ img.getpixel x y) →
      get_content_bounds img = (0, 0, img.width, img.height)) ∧
    (∀ x₁ y₁ x₂ y₂ x₃ y₃ x₄ y₄,
      x₁ < img.width → y₁ < img.height → img.getpixel x₁ y₁ < 255 →
      x₂ < img.width → y₂ < img.height → img.getpixel x₂ y₂ < 255 →
      x₃ < img.width → y₃ < img.height → img.getpixel x₃ y₃ < 255 →
      x₄ < img.width → y₄ < img.height → img.getpixel x₄ y₄ < 255 →
      x₁ ≠ x₂ → y₃ ≠ y₄ →
      ∀ l t r b, get_content_bounds img = (l, t, r, b) →
        (∀ x y, x < img.width → y < img.height → img.getpixel x y < 255 →
          l ≤ x ∧ x < r ∧ t ≤ y ∧ y < b) ∧
        (∃ x y, x < img.width ∧ y < img.height ∧ img.getpixel x y < 255 ∧
          x = l) ∧
        (∃ x y, x < img.width ∧ y < img.height ∧ img.getpixel x y < 255 ∧
          x + 1 = r) ∧
        (∃ x y, x < img.width ∧ y < img.height ∧ img.getpixel x y < 255 ∧
          y = t) ∧
        (∃ x y, x < img.width ∧ y < img.height ∧ img.getpixel x y < 255 ∧
          y + 1 = b)) ∧
    (∀ x₀ y₀, x₀ < img.width → y₀ < img.height → img.getpixel x₀ y₀ < 255 →
      ((∀ x, x < img.width → ∀ y, y < img.height → img.getpixel x y < 255 →
          x = x₀) ∨
       (∀ x, x < img.width → ∀ y, y < img.height → img.getpixel x y < 255 →
          y = y₀)) →
      get_content_bounds img = (0, 0, img.width, img.height)) := by
  refine ⟨?_, ?_, ?_⟩
  · intro hno
    have hs := scanBounds_of_no_content img hno
    simp only [get_content_bounds, hs]
    rw [if_pos (Or.inl (Nat.zero_le _))]
  · intro x₁ y₁ x₂ y₂ x₃ y₃ x₄ y₄ hx₁ hy₁ hp₁ hx₂ hy₂ hp₂ hx₃ hy₃ hp₃
      hx₄ hy₄ hp₄ hne₁₂ hne₃₄ l t r b he
    have hb₁ := scanBounds_bounds hx₁ hy₁ hp₁
    have hb₂ := scanBounds_bounds hx₂ hy₂ hp₂
    have hb₃ := scanBounds_bounds hx₃ hy₃ hp₃
    have hb₄ := scanBounds_bounds hx₄ hy₄ hp₄
    have hlr : (scanBounds img).left < (scanBounds img).right := by omega
    have htb : (scanBounds img).top < (scanBounds img).bottom := by omega
    have hg := gcb_of_spanning img hlr htb
    rw [hg] at he
    simp only [Prod.mk.injEq] at he
    obtain ⟨e1, e2, e3, e4⟩ := he
    refine ⟨?_, ?_, ?_, ?_, ?_⟩
    · intro x y hx hy hp
      have hb := scanBounds_bounds hx hy hp
      omega
    · rcases scanBounds_left_cases img with h0 | ⟨x, y, hx, hy, hp, ha⟩
      · omega
      · exact ⟨x, y, hx, hy, hp, by omega⟩
    · rcases scanBounds_right_cases img with h0 | ⟨x, y, hx, hy, hp, ha⟩
      · omega
      · exact ⟨x, y, hx, hy, hp, by omega⟩
    · rcases scanBounds_top_cases img with h0 | ⟨x, y, hx, hy, hp, ha⟩
      · omega
      · exact ⟨x, y, hx, hy, hp, by omega⟩
    · rcases scanBounds_bottom_cases img with h0 | ⟨x, y, hx, hy, hp, ha⟩
      · omega
      · exact ⟨x, y, hx, hy, hp, by omega⟩
  · intro x₀ y₀ hx₀ hy₀ hp₀ hdeg
    have hb₀ := scanBounds_bounds hx₀ hy₀ hp₀
    have hfall : (scanBounds img).right ≤ (scanBounds img).left ∨
        (scanBounds img).bottom ≤ (scanBounds img).top := by
      rcases hdeg with hc | hc
      · left
        have hleft : (scanBounds img).left = x₀ := by
          rcases scanBounds_left_cases img with h0 | ⟨x, y, hx, hy, hp, ha⟩
          · omega
          · have hxx := hc x hx y hy hp
            omega
        rcases scanBounds_right_cases img with h0 | ⟨x, y, hx, hy, hp, ha⟩
        · omega
        · have hxx := hc x hx y hy hp
          omega
      · right
        have htop : (scanBounds img).top = y₀ := by
          rcases scanBounds_top_cases img with h0 | ⟨x, y, hx, hy, hp, ha⟩
          · omega
          · have hyy := hc x hx y hy hp
            omega
        rcases scanBounds_bottom_cases img with h0 | ⟨x, y, hx, hy, hp, ha⟩
        · omega
        · have hyy := hc x hx y hy hp
          omega
    simp only [get_content_bounds]
    rw [if_pos hfall]

/-- Witness for C7: the no-content branch on an all-white image, the
tightness bounds on an image whose content spans both columns and
rows, and the whole-image fallback on single-row content spanning two
columns. -/
theorem content_bounds_amended_witness :
    get_content_bounds (Img.mk 1 1 [255]) = (0, 0, 1, 1) ∧
    (0 ≤ 1 ∧ 1 < 2 ∧ 0 ≤ 1 ∧ 1 < 2) ∧
    get_content_bounds (Img.mk 2 2 [0, 0, 255, 255]) = (0, 0, 2, 2) := by
  refine ⟨?_, ?_, ?_⟩
  · exact (content_bounds_amended (Img.mk 1 1 [255])).1 (by decide)
  · have h2 := (content_bounds_amended (Img.mk 2 2 [0, 255, 255, 0])).2.1
      0 0 1 1 0 0 1 1 (by decide) (by decide) (by decide) (by decide)
      (by decide) (by decide) (by decide) (by decide) (by decide)
      (by decide) (by decide) (by decide) (by decide) (by decide)
      0 0 2 2 (by decide)
    exact h2.1 1 1 (by decide) (by decide) (by decide)
  · exact (content_bounds_amended (Img.mk 2 2 [0, 0, 255, 255])).2.2
      0 0 (by decide) (by decide) (by decide) (Or.inr (by decide))

/-- Counterexample for C7 as stated: a 2 by 2 image with a single
content pixel at the origin.  The tight bounding box of the content
would be `(0, 0, 1, 1)`, and content does exist, yet
`get_content_bounds` returns the whole-image box `(0, 0, 2, 2)` — so
the function neither returns the tight box of all pixels below 255
nor returns the whole-image box only when no such pixel exists. -/
theorem content_bounds_claim_counterexample :
    Img.getpixel (Img.mk 2 2 [0, 255, 255, 255]) 0 0 < 255 ∧
    get_content_bounds (Img.mk 2 2 [0, 255, 255, 255]) = (0, 0, 2, 2) ∧
    get_content_bounds (Img.mk 2 2 [0, 255, 255, 255]) ≠ (0, 0, 1, 1) := by
  decide

/-- Truncation toward zero agrees with the floor on nonnegative
rationals. -/
theorem pyInt_eq_floor_of_nonneg (q : ℚ) (hq : 0 ≤ q) : pyInt q = ⌊q⌋ := by
  unfold pyInt
  rw [Int.tdiv_eq_ediv (Rat.num_nonneg.2 hq) (Int.natCast_nonneg q.den)]
  exact Rat.floor_def.symm

theorem pyInt_intCast (n : ℤ) : pyInt (n : ℚ) = n := by
  simp [pyInt, Rat.num_intCast, Rat.den_intCast]

/-- Evaluation rule for `pyInt` on a nonnegative value with known
integer bounds. -/
theorem pyInt_eq_of_bounds (n : ℤ) (q : ℚ) (hn : 0 ≤ n)
    (h₁ : (n : ℚ) ≤ q) (h₂ : q < (n : ℚ) + 1) : pyInt q = n := by
  have hq : 0 ≤ q := le_trans (by exact_mod_cast hn) h₁
  rw [pyInt_eq_floor_of_nonneg q hq]
  exact Int.floor_eq_iff.2 ⟨h₁, by push_cast; exact_mod_cast h₂⟩

/-- Per-axis interpolated perspective factor anchored at the near edge
`pos = 0` (value `1 + stretch` there, affinely decreasing to `1` at
`pos = axis`). -/
def perspFactorNear (stretch : ℚ) (axis pos : ℕ) : ℚ :=
  1 + stretch * (1 - (pos : ℚ) / (axis : ℚ))

/-- Per-axis interpolated perspective factor anchored at the far edge
(value `1` at `pos = 0`, affinely increasing to `1 + stretch` at
`pos = axis`). -/
def perspFactorFar (stretch : ℚ) (axis pos : ℕ) : ℚ :=
  1 + stretch * ((pos : ℚ) / (axis : ℚ))

/-- Remapped orthogonal source coordinate of the perspective stretch:
`src = coord/factor + L*(factor-1)/(2*factor)` where `L` is the full
extent of the remapped axis. -/
def perspSrc (L coord : ℕ) (factor : ℚ) : ℤ :=
  pyInt ((coord : ℚ) / factor + ((L : ℚ) * (factor - 1)) / (2 * factor))

/-- Horizontally remapped destination value: the source pixel `(s, y)`
when `s` is in bounds, else background 255. -/
def copyH (image : Img) (s : ℤ) (y : ℕ) : ℕ :=
  if 0 ≤ s ∧ s < (image.width : ℤ) then image.getpixel s.toNat y else 255

/-- Vertically remapped destination value: the source pixel `(x, s)`
when `s` is in bounds, else background 255. -/
def copyV (image : Img) (x : ℕ) (s : ℤ) : ℕ :=
  if 0 ≤ s ∧ s < (image.height : ℤ) then image.getpixel x s.toNat else 255

/-- C5 (amended): the perspective distortion keeps output dimensions,
and per destination pixel remaps the orthogonal coordinate through the
interpolated factor, where the constant in the remap formula is the
extent of the remapped axis: the image width for top/bottom anchors
and the image height for left/right anchors (the claim as stated uses
the width in all four cases).  Out-of-bounds sources give background
255. -/
theorem perspective_pixel_mapping_amended (image : Img) (stretch : ℚ)
    (corner : String) (x y : ℕ)
    (hs₁ : 1/20 ≤ stretch) (hs₂ : stretch ≤ 1/4)
    (hx : x < image.width) (hy : y < image.height) :
    (apply_perspective_with stretch corner image).width = image.width ∧
    (apply_perspective_with stretch corner image).height = image.height ∧
    (corner = ("top" : String) →
      (apply_perspective_with stretch corner image).getpixel x y =
        copyH image (perspSrc image.width x
          (perspFactorNear stretch image.height y)) y) ∧
    (corner = ("bottom" : String) →
      (apply_perspective_with stretch corner image).getpixel x y =
        copyH image (perspSrc image.width x
          (perspFactorFar stretch image.height y)) y) ∧
    (corner = ("left" : String) →
      (apply_perspective_with stretch corner image).getpixel x y =
        copyV image x (perspSrc image.height y
          (perspFactorNear stretch image.width x))) ∧
    (corner ≠ ("top" : String) → corner ≠ ("bottom" : String) →
      corner ≠ ("left" : String) →
      (apply_perspective_with stretch corner image).getpixel x y =
        copyV image x (perspSrc image.height y
          (perspFactorFar stretch image.width x))) := by
  have hget : (apply_perspective_with stretch corner image).getpixel x y =
      (let w := image.width
       let h := image.height
       let src : ℤ × ℤ :=
         if corner = ("top" : String) then
           let factor : ℚ := 1 + stretch * (1 - (y : ℚ) / (h : ℚ))
           (pyInt ((x : ℚ) / factor + ((w : ℚ) * (factor - 1)) / (2 * factor)), (y : ℤ))
         else if corner = ("bottom" : String) then
           let factor : ℚ := 1 + stretch * ((y : ℚ) / (h : ℚ))
           (pyInt ((x : ℚ) / factor + ((w : ℚ) * (factor - 1)) / (2 * factor)), (y : ℤ))
         else if corner = ("left" : String) then
           let factor : ℚ := 1 + stretch * (1 - (x : ℚ) / (w : ℚ))
           ((x : ℤ), pyInt ((y : ℚ) / factor + ((h : ℚ) * (factor - 1)) / (2 * factor)))
         else
           let factor : ℚ := 1 + stretch * ((x : ℚ) / (w : ℚ))
           ((x : ℤ), pyInt ((y : ℚ) / factor + ((h : ℚ) * (factor - 1)) / (2 * factor)))
       if 0 ≤ src.1 ∧ src.1 < (image.width : ℤ) ∧ 0 ≤ src.2 ∧ src.2 < (image.height : ℤ)
       then some (image.getpixel src.1.toNat src.2.toNat)
       else none).getD ((imageNew image.width image.height 255).getpixel x y) := by
    rw [apply_perspective_with]
    exact fillLoop_get _ _ _ _ hx hy (imageNew_width _ _ _)
      (by rw [imageNew_length]; exact flat_lt hx hy)
  rw [imageNew_get 255 hx hy] at hget
  refine ⟨?_, ?_, ?_, ?_, ?_, ?_⟩
  · rw [apply_perspective_with, fillLoop_width, imageNew_width]
  · rw [apply_perspective_with, fillLoop_height, imageNew_height]
  · intro hc
    subst hc
    rw [hget]
    simp only [String.reduceEq, reduceIte, copyH, perspSrc, perspFactorNear]
    split_ifs with h1 h2 h3
    · simp [Int.toNat_natCast]
    · exact absurd ⟨h1.1, h1.2.1⟩ h2
    · exact absurd ⟨h3.1, h3.2, Int.natCast_nonneg y, by exact_mod_cast hy⟩ h1
    · rfl
  · intro hc
    subst hc
    rw [hget]
    simp only [String.reduceEq, reduceIte, copyH, perspSrc, perspFactorFar]
    split_ifs with h1 h2 h3
    · simp [Int.toNat_natCast]
    · exact absurd ⟨h1.1, h1.2.1⟩ h2
    · exact absurd ⟨h3.1, h3.2, Int.natCast_nonneg y, by exact_mod_cast hy⟩ h1
    · rfl
  · intro hc
    subst hc
    rw [hget]
    simp only [String.reduceEq, reduceIte, copyV, perspSrc, perspFactorNear]
    split_ifs with h1 h2 h3
    · simp [Int.toNat_natCast]
    · exact absurd ⟨h1.2.2.1, h1.2.2.2⟩ h2
    · exact absurd ⟨Int.natCast_nonneg x, by exact_mod_cast hx, h3.1, h3.2⟩ h1
    · rfl
  · intro hc1 hc2 hc3
    rw [hget]
    simp only [hc1, hc2, hc3, if_false, copyV, perspSrc, perspFactorFar]
    split_ifs with h1 h2 h3
    · simp [Int.toNat_natCast]
    · exact absurd ⟨h1.2.2.1, h1.2.2.2⟩ h2
    · exact absurd ⟨Int.natCast_nonneg x, by exact_mod_cast hx, h3.1, h3.2⟩ h1
    · rfl

/-- Pixel characterization of the left-anchored perspective branch
(helper used to evaluate the distortion at concrete inputs). -/
theorem persp_left_pixel (image : Img) (stretch : ℚ) (x y : ℕ)
    (hx : x < image.width) (hy : y < image.height) :
    (apply_perspective_with stretch ("left" : String) image).getpixel x y =
      copyV image x (perspSrc image.height y
        (perspFactorNear stretch image.width x)) := by
  rw [apply_perspective_with, fillLoop_get _ _ _ _ hx hy (imageNew_width _ _ _)
    (by rw [imageNew_length]; exact flat_lt hx hy), imageNew_get 255 hx hy]
  simp only [String.reduceEq, reduceIte, copyV, perspSrc, perspFactorNear]
  split_ifs with h1 h2 h3
  · simp [Int.toNat_natCast]
  · exact absurd ⟨h1.2.2.1, h1.2.2.2⟩ h2
  · exact absurd ⟨Int.natCast_nonneg x, by exact_mod_cast hx, h3.1, h3.2⟩ h1
  · rfl

/-- Counterexample for C5 as stated: a 2-wide, 4-high image, anchor
edge `left`, stretch 1/4, destination `(0, 2)`.  The code remaps with
the image height (source row `int(2/(5/4) + 4*(1/4)/(2*(5/4))) = 2`,
pixel value 4), while the claim formula with `width` predicts source
row `int(2/(5/4) + 2*(1/4)/(2*(5/4))) = 1`, whose pixel value is 2. -/
theorem perspective_claim_counterexample :
    (apply_perspective_with (1/4) ("left" : String)
        (Img.mk 2 4 [0, 1, 2, 3, 4, 5, 6, 7])).getpixel 0 2 = 4 ∧
    perspSrc 2 2 (perspFactorNear (1/4) 2 0) = 1 ∧
    (Img.mk 2 4 [0, 1, 2, 3, 4, 5, 6, 7]).getpixel 0 1 = 2 ∧
    (4 : ℕ) ≠ 2 := by
  refine ⟨?_, ?_, by decide, by decide⟩
  · rw [persp_left_pixel (Img.mk 2 4 [0, 1, 2, 3, 4, 5, 6, 7]) (1/4) 0 2
      (by decide) (by decide)]
    have hs : perspSrc (Img.mk 2 4 [0, 1, 2, 3, 4, 5, 6, 7]).height 2
        (perspFactorNear (1/4) (Img.mk 2 4 [0, 1, 2, 3, 4, 5, 6, 7]).width 0)
        = 2 := by
      show perspSrc 4 2 (perspFactorNear (1/4) 2 0) = 2
      rw [perspSrc, perspFactorNear]
      exact pyInt_eq_of_bounds 2 _ (by norm_num)
        (by push_cast; norm_num) (by push_cast; norm_num)
    rw [hs]
    rw [copyV, if_pos (by decide)]
    decide
  · rw [perspSrc, perspFactorNear]
    exact pyInt_eq_of_bounds 1 _ (by norm_num)
      (by push_cast; norm_num) (by push_cast; norm_num)

/-- Witness for C5 (amended): top anchor on a one-pixel image; the
remapped source stays at the origin and the pixel is copied. -/
theorem perspective_pixel_mapping_amended_witness :
    (apply_perspective_with (1/10) ("top" : String)
        (Img.mk 1 1 [5])).getpixel 0 0 = 5 := by
  have h := (perspective_pixel_mapping_amended (Img.mk 1 1 [5]) (1/10)
    ("top") 0 0 (by norm_num) (by norm_num) (by decide) (by decide)).2.2.1 rfl
  rw [h]
  have hs : perspSrc (Img.mk 1 1 [5]).width 0
      (perspFactorNear (1/10) (Img.mk 1 1 [5]).height 0) = 0 := by
    show perspSrc 1 0 (perspFactorNear (1/10) 1 0) = 0
    rw [perspSrc, perspFactorNear]
    exact pyInt_eq_of_bounds 0 _ le_rfl
      (by push_cast; norm_num) (by push_cast; norm_num)
  rw [hs]
  rw [copyH, if_pos (by decide)]
  decide

/-- Distance of destination `(x, y)` from the fisheye center, as the
float `math.sqrt(dx*dx + dy*dy)` over `ℝ`. -/
noncomputable def fisheyeDist (center_x center_y : ℤ) (x y : ℕ) : ℝ :=
  Real.sqrt ((((x : ℤ) - center_x) * ((x : ℤ) - center_x)
    + ((y : ℤ) - center_y) * ((y : ℤ) - center_y) : ℤ) : ℝ)

/-- Effective fisheye radius `min(width, height) * 0.7`. -/
noncomputable def fisheyeRadius (w h : ℕ) : ℝ :=
  (min w h : ℕ) * (7 / 10 : ℝ)

/-- Fisheye bulge factor `1 + strength * (1 - d/r)`. -/
noncomputable def fisheyeFactor (strength : ℚ) (d r : ℝ) : ℝ :=
  1 + (strength : ℝ) * (1 - d / r)

/-- Fisheye source coordinate `int(center + delta/factor)`. -/
noncomputable def fisheyeSrc (c delta : ℤ) (factor : ℝ) : ℤ :=
  pyIntReal ((c : ℝ) + (delta : ℝ) / factor)

/-- C4: in the fisheye distortion, a destination at distance 0 from
the center, or at distance at least the effective radius, keeps its
own original pixel; strictly inside the radius the bulge source is
copied when in bounds and the destination falls back to its own
original pixel when the source is out of bounds — never to the
background constant.  Consequently every output pixel equals some
in-range input pixel, so fisheye introduces no background value that
the input does not already contain.  Output dimensions are unchanged. -/
theorem fisheye_pixel_mapping (image : Img) (center_x center_y : ℤ)
    (strength : ℚ) (x y : ℕ)
    (hs₁ : 3/10 ≤ strength) (hs₂ : strength ≤ 9/10)
    (hx : x < image.width) (hy : y < image.height) :
    (apply_fisheye_with center_x center_y strength image).width = image.width ∧
    (apply_fisheye_with center_x center_y strength image).height = image.height ∧
    ((fisheyeDist center_x center_y x y = 0 ∨
        fisheyeRadius image.width image.height ≤ fisheyeDist center_x center_y x y) →
      (apply_fisheye_with center_x center_y strength image).getpixel x y =
        image.getpixel x y) ∧
    (0 < fisheyeDist center_x center_y x y →
      fisheyeDist center_x center_y x y < fisheyeRadius image.width image.height →
      (apply_fisheye_with center_x center_y strength image).getpixel x y =
        (if 0 ≤ fisheyeSrc center_x ((x : ℤ) - center_x)
              (fisheyeFactor strength (fisheyeDist center_x center_y x y)
                (fisheyeRadius image.width image.height)) ∧
            fisheyeSrc center_x ((x : ℤ) - center_x)
              (fisheyeFactor strength (fisheyeDist center_x center_y x y)
                (fisheyeRadius image.width image.height)) < (image.width : ℤ) ∧
            0 ≤ fisheyeSrc center_y ((y : ℤ) - center_y)
              (fisheyeFactor strength (fisheyeDist center_x center_y x y)
                (fisheyeRadius image.width image.height)) ∧
            fisheyeSrc center_y ((y : ℤ) - center_y)
              (fisheyeFactor strength (fisheyeDist center_x center_y x y)
                (fisheyeRadius image.width image.height)) < (image.height : ℤ)
          then image.getpixel
            (fisheyeSrc center_x ((x : ℤ) - center_x)
              (fisheyeFactor strength (fisheyeDist center_x center_y x y)
                (fisheyeRadius image.width image.height))).toNat
            (fisheyeSrc center_y ((y : ℤ) - center_y)
              (fisheyeFactor strength (fisheyeDist center_x center_y x y)
                (fisheyeRadius image.width image.height))).toNat
          else image.getpixel x y)) ∧
    (∃ a b, a < image.width ∧ b < image.height ∧
      (apply_fisheye_with center_x center_y strength image).getpixel x y =
        image.getpixel a b) := by
  classical
  have hget : (apply_fisheye_with center_x center_y strength image).getpixel x y =
      (if fisheyeDist center_x center_y x y <
            fisheyeRadius image.width image.height ∧
          0 < fisheyeDist center_x center_y x y then
        if 0 ≤ fisheyeSrc center_x ((x : ℤ) - center_x)
              (fisheyeFactor strength (fisheyeDist center_x center_y x y)
                (fisheyeRadius image.width image.height)) ∧
            fisheyeSrc center_x ((x : ℤ) - center_x)
              (fisheyeFactor strength (fisheyeDist center_x center_y x y)
                (fisheyeRadius image.width image.height)) < (image.width : ℤ) ∧
            0 ≤ fisheyeSrc center_y ((y : ℤ) - center_y)
              (fisheyeFactor strength (fisheyeDist center_x center_y x y)
                (fisheyeRadius image.width image.height)) ∧
            fisheyeSrc center_y ((y : ℤ) - center_y)
              (fisheyeFactor strength (fisheyeDist center_x center_y x y)
                (fisheyeRadius image.width image.height)) < (image.height : ℤ)
        then image.getpixel
          (fisheyeSrc center_x ((x : ℤ) - center_x)
            (fisheyeFactor strength (fisheyeDist center_x center_y x y)
              (fisheyeRadius image.width image.height))).toNat
          (fisheyeSrc center_y ((y : ℤ) - center_y)
            (fisheyeFactor strength (fisheyeDist center_x center_y x y)
              (fisheyeRadius image.width image.height))).toNat
        else image.getpixel x y
      else image.getpixel x y) := by
    rw [apply_fisheye_with, fillLoop_get _ _ _ _ hx hy (imageNew_width _ _ _)
      (by rw [imageNew_length]; exact flat_lt hx hy)]
    simp only [Option.getD_some, fisheyeDist, fisheyeRadius, fisheyeFactor,
      fisheyeSrc]
  refine ⟨?_, ?_, ?_, ?_, ?_⟩
  · rw [apply_fisheye_with, fillLoop_width, imageNew_width]
  · rw [apply_fisheye_with, fillLoop_height, imageNew_height]
  · intro hfar
    rw [hget, if_neg]
    intro hc
    rcases hfar with h0 | hr
    · rw [h0] at hc
      exact lt_irrefl 0 hc.2
    · exact absurd hc.1 (not_lt.2 hr)
  · intro hd0 hdr
    rw [hget, if_pos ⟨hdr, hd0⟩]
  · rw [hget]
    by_cases h1 : fisheyeDist center_x center_y x y <
        fisheyeRadius image.width image.height ∧
        0 < fisheyeDist center_x center_y x y
    · rw [if_pos h1]
      by_cases h2 : 0 ≤ fisheyeSrc center_x ((x : ℤ) - center_x)
            (fisheyeFactor strength (fisheyeDist center_x center_y x y)
              (fisheyeRadius image.width image.height)) ∧
          fisheyeSrc center_x ((x : ℤ) - center_x)
            (fisheyeFactor strength (fisheyeDist center_x center_y x y)
              (fisheyeRadius image.width image.height)) < (image.width : ℤ) ∧
          0 ≤ fisheyeSrc center_y ((y : ℤ) - center_y)
            (fisheyeFactor strength (fisheyeDist center_x center_y x y)
              (fisheyeRadius image.width image.height)) ∧
          fisheyeSrc center_y ((y : ℤ) - center_y)
            (fisheyeFactor strength (fisheyeDist center_x center_y x y)
              (fisheyeRadius image.width image.height)) < (image.height : ℤ)
      · rw [if_pos h2]
        obtain ⟨ha1, ha2, hb1, hb2⟩ := h2
        exact ⟨_, _, by omega, by omega, rfl⟩
      · rw [if_neg h2]
        exact ⟨x, y, hx, hy, rfl⟩
    · rw [if_neg h1]
      exact ⟨x, y, hx, hy, rfl⟩

/-- Witness for C4: the destination at the fisheye center (distance 0)
keeps its own pixel value. -/
theorem fisheye_pixel_mapping_witness :
    (apply_fisheye_with 0 0 (1/2) (Img.mk 1 1 [9])).getpixel 0 0 = 9 := by
  have h := (fisheye_pixel_mapping (Img.mk 1 1 [9]) 0 0 (1/2) 0 0
    (by norm_num) (by norm_num) (by decide) (by decide)).2.2.1
  have hd : fisheyeDist 0 0 0 0 = 0 := by
    rw [fisheyeDist]
    norm_num [Real.sqrt_zero]
  rw [h (Or.inl hd)]
  decide

/-- TextRenderer.calculate_font_size with the drawn jitter explicit.
`max_width // len(text)` is Python integer floor division; the float
constants and the clamps are exact rationals; the final `int()` is
truncation toward zero. -/
def calculate_font_size (text : String) (max_width max_height : ℕ)
    (variation : ℚ) : ℤ :=
  let n := text.length
  let base : ℚ :=
    if n ≤ 4 then
      min ((max_width / n * 3 : ℕ) : ℚ) ((max_height : ℚ) * (7/10))
    else if n ≤ 7 then
      min (((max_width / n : ℕ) : ℚ) * (5/2)) ((max_height : ℚ) * (3/5))
    else
      min ((max_width / n * 2 : ℕ) : ℚ) ((max_height : ℚ) * (1/2))
  let bounded : ℚ := max 12 (min base 64)
  let font_size : ℤ := pyInt (bounded * variation)
  max 12 (min font_size 64)

/-- C6: for non-empty text and positive bounds, the piecewise base
size is clamped to [12, 64], jittered by the drawn factor in
[0.8, 1.2], truncated and clamped again, so the returned font size
always lies in [12, 64]. -/
theorem font_size_bounds (text : String) (max_width max_height : ℕ)
    (variation : ℚ) (hn : 0 < text.length) (hw : 0 < max_width)
    (hh : 0 < max_height) (hv₁ : 4/5 ≤ variation) (hv₂ : variation ≤ 6/5) :
    12 ≤ calculate_font_size text max_width max_height variation ∧
    calculate_font_size text max_width max_height variation ≤ 64 := by
  unfold calculate_font_size
  refine ⟨le_max_left _ _, ?_⟩
  exact max_le (by norm_num) (min_le_right _ _)

/-- Witness for C6: the word POW! at the working-canvas target box
512 by 256 with unit jitter gives exactly the upper clamp 64. -/
theorem font_size_bounds_witness :
    calculate_font_size ("POW!") 512 256 1 = 64 ∧
    12 ≤ calculate_font_size ("POW!") 512 256 1 ∧
    calculate_font_size ("POW!") 512 256 1 ≤ 64 := by
  have hb := font_size_bounds ("POW!") 512 256 1 (by decide) (by decide)
    (by decide) (by norm_num) (by norm_num)
  refine ⟨?_, hb.1, hb.2⟩
  have hlen : ("POW!" : String).length = 4 := rfl
  simp only [calculate_font_size, hlen]
  norm_num
  rw [show ((64 : ℚ)) = ((64 : ℤ) : ℚ) by norm_num, pyInt_intCast]
  decide

/-- Clamp a propagated value to a byte, as each error write clamps to
[0, 255]. -/
def clampByte (v : ℤ) : ℕ := (max 0 (min v 255)).toNat

/-- One bounds-checked error write of the diffusion: add `e` to the
pixel at `(a, b)` (clamped), skipping out-of-bounds targets. -/
def pushErr (d : Img) (a b e : ℤ) : Img :=
  if 0 ≤ a ∧ a < (d.width : ℤ) ∧ 0 ≤ b ∧ b < (d.height : ℤ) then
    d.putpixel a.toNat b.toNat
      (clampByte ((d.getpixel a.toNat b.toNat : ℤ) + e))
  else d

/-- One pixel of Floyd-Steinberg error diffusion: threshold at 127,
then propagate the quantization error to the four forward neighbours
with weights 7/16, 3/16, 5/16, 1/16. -/
def ditherStep (d : Img) (x y : ℕ) : Img :=
  let old := d.getpixel x y
  let q : ℕ := if 127 < old then 255 else 0
  let e : ℤ := (old : ℤ) - (q : ℤ)
  let d1 := d.putpixel x y q
  let d2 := pushErr d1 ((x : ℤ) + 1) (y : ℤ) ((e * 7).fdiv 16)
  let d3 := pushErr d2 ((x : ℤ) - 1) ((y : ℤ) + 1) ((e * 3).fdiv 16)
  let d4 := pushErr d3 (x : ℤ) ((y : ℤ) + 1) ((e * 5).fdiv 16)
  pushErr d4 ((x : ℤ) + 1) ((y : ℤ) + 1) ((e * 1).fdiv 16)

/-- One row of the row-major diffusion scan. -/
def ditherRow (y n : ℕ) (d : Img) : Img :=
  (List.range n).foldl (fun d x => ditherStep d x y) d

/-- Modelled from the spec: WordGenerator.apply_dithering calls the
external PIL `Image.convert("1")`, whose algorithm is not in the
repository; per the spec it is Floyd-Steinberg error diffusion over
the pixels in row-major order, thresholding at 127 and clamping every
propagated write to [0, 255], producing strictly two levels. -/
def apply_dithering (img : Img) : Img :=
  (List.range img.height).foldl (fun d y => ditherRow y img.width d) img

theorem pushErr_width (d : Img) (a b e : ℤ) : (pushErr d a b e).width = d.width := by
  unfold pushErr; split <;> rfl

theorem pushErr_height (d : Img) (a b e : ℤ) : (pushErr d a b e).height = d.height := by
  unfold pushErr; split <;> rfl

theorem pushErr_length (d : Img) (a b e : ℤ) :
    (pushErr d a b e).data.length = d.data.length := by
  unfold pushErr; split
  · exact d.putpixel_length _ _ _
  · rfl

theorem ditherStep_width (d : Img) (x y : ℕ) :
    (ditherStep d x y).width = d.width := by
  unfold ditherStep
  simp only [pushErr_width, Img.putpixel_width]

theorem ditherStep_height (d : Img) (x y : ℕ) :
    (ditherStep d x y).height = d.height := by
  unfold ditherStep
  simp only [pushErr_height, Img.putpixel_height]

theorem ditherStep_length (d : Img) (x y : ℕ) :
    (ditherStep d x y).data.length = d.data.length := by
  unfold ditherStep
  simp only [pushErr_length, Img.putpixel_length]

theorem ditherRow_width (y n : ℕ) (d : Img) : (ditherRow y n d).width = d.width := by
  induction n with
  | zero => rfl
  | succ m ih =>
      unfold ditherRow
      rw [List.range_succ, List.foldl_append]
      show (ditherStep (ditherRow y m d) m y).width = d.width
      rw [ditherStep_width]; exact ih

theorem ditherRow_height (y n : ℕ) (d : Img) : (ditherRow y n d).height = d.height := by
  induction n with
  | zero => rfl
  | succ m ih =>
      unfold ditherRow
      rw [List.range_succ, List.foldl_append]
      show (ditherStep (ditherRow y m d) m y).height = d.height
      rw [ditherStep_height]; exact ih

theorem ditherRow_length (y n : ℕ) (d : Img) :
    (ditherRow y n d).data.length = d.data.length := by
  induction n with
  | zero => rfl
  | succ m ih =>
      unfold ditherRow
      rw [List.range_succ, List.foldl_append]
      show (ditherStep (ditherRow y m d) m y).data.length = d.data.length
      rw [ditherStep_length]; exact ih

theorem ditherAll_width (img : Img) (m : ℕ) :
    ((List.range m).foldl (fun d y => ditherRow y img.width d) img).width
      = img.width := by
  induction m with
  | zero => rfl
  | succ k ih =>
      rw [List.range_succ, List.foldl_append]
      show (ditherRow k img.width ((List.range k).foldl
        (fun d y => ditherRow y img.width d) img)).width = img.width
      rw [ditherRow_width]; exact ih

theorem ditherAll_height (img : Img) (m : ℕ) :
    ((List.range m).foldl (fun d y => ditherRow y img.width d) img).height
      = img.height := by
  induction m with
  | zero => rfl
  | succ k ih =>
      rw [List.range_succ, List.foldl_append]
      show (ditherRow k img.width ((List.range k).foldl
        (fun d y => ditherRow y img.width d) img)).height = img.height
      rw [ditherRow_height]; exact ih

theorem ditherAll_length (img : Img) (m : ℕ) :
    ((List.range m).foldl (fun d y => ditherRow y img.width d) img).data.length
      = img.data.length := by
  induction m with
  | zero => rfl
  | succ k ih =>
      rw [List.range_succ, List.foldl_append]
      show (ditherRow k img.width ((List.range k).foldl
        (fun d y => ditherRow y img.width d) img)).data.length
        = img.data.length
      rw [ditherRow_length]; exact ih

theorem apply_dithering_width (img : Img) :
    (apply_dithering img).width = img.width :=
  ditherAll_width img img.height

theorem apply_dithering_height (img : Img) :
    (apply_dithering img).height = img.height :=
  ditherAll_height img img.height

theorem apply_dithering_length (img : Img) :
    (apply_dithering img).data.length = img.data.length :=
  ditherAll_length img img.height

theorem pushErr_get_ne (d : Img) (a b e : ℤ) {x₂ y₂ : ℕ}
    (hx₂ : x₂ < d.width) (hne : ¬(a = (x₂ : ℤ) ∧ b = (y₂ : ℤ))) :
    (pushErr d a b e).getpixel x₂ y₂ = d.getpixel x₂ y₂ := by
  by_cases hin : 0 ≤ a ∧ a < (d.width : ℤ) ∧ 0 ≤ b ∧ b < (d.height : ℤ)
  · simp only [pushErr, if_pos hin]
    apply Img.getpixel_putpixel_ne
    intro he
    have h1 : a.toNat < d.width := by omega
    have h3 := flatIdx_inj hx₂ h1 he
    exact hne ⟨by omega, by omega⟩
  · simp only [pushErr, if_neg hin]

/-- A diffusion step at `(x, y)` writes only to `(x, y)` and to
strictly later pixels in row-major order. -/
theorem ditherStep_prev (d : Img) (x y x₂ y₂ : ℕ) (hx : x < d.width)
    (hx₂ : x₂ < d.width) (horder : y₂ < y ∨ (y₂ = y ∧ x₂ < x)) :
    (ditherStep d x y).getpixel x₂ y₂ = d.getpixel x₂ y₂ := by
  have hne0 : y₂ * d.width + x₂ ≠ y * d.width + x := by
    intro he
    have h2 := flatIdx_inj hx₂ hx he
    rcases horder with h | h <;> omega
  simp only [ditherStep]
  refine Eq.trans (pushErr_get_ne _ _ _ _ ?_ ?_)
    (Eq.trans (pushErr_get_ne _ _ _ _ ?_ ?_)
      (Eq.trans (pushErr_get_ne _ _ _ _ ?_ ?_)
        (Eq.trans (pushErr_get_ne _ _ _ _ ?_ ?_)
          (Img.getpixel_putpixel_ne _ _ hne0))))
  · simp only [pushErr_width, Img.putpixel_width]; exact hx₂
  · rcases horder with h | h <;> omega
  · simp only [pushErr_width, Img.putpixel_width]; exact hx₂
  · rcases horder with h | h <;> omega
  · simp only [pushErr_width, Img.putpixel_width]; exact hx₂
  · rcases horder with h | h <;> omega
  · simp only [pushErr_width, Img.putpixel_width]; exact hx₂
  · rcases horder with h | h <;> omega

/-- A diffusion step leaves its own pixel at the threshold value. -/
theorem ditherStep_self (d : Img) (x y : ℕ) (hx : x < d.width)
    (hy : y < d.height) (hlen : d.data.length = d.width * d.height) :
    (ditherStep d x y).getpixel x y =
      (if 127 < d.getpixel x y then 255 else 0) := by
  simp only [ditherStep]
  refine Eq.trans (pushErr_get_ne _ _ _ _ ?_ ?_)
    (Eq.trans (pushErr_get_ne _ _ _ _ ?_ ?_)
      (Eq.trans (pushErr_get_ne _ _ _ _ ?_ ?_)
        (Eq.trans (pushErr_get_ne _ _ _ _ ?_ ?_)
          (Img.getpixel_putpixel_self _ _ _ _ ?_))))
  · simp only [pushErr_width, Img.putpixel_width]; exact hx
  · omega
  · simp only [pushErr_width, Img.putpixel_width]; exact hx
  · omega
  · simp only [pushErr_width, Img.putpixel_width]; exact hx
  · omega
  · simp only [pushErr_width, Img.putpixel_width]; exact hx
  · omega
  · rw [hlen]; exact flat_lt hx hy

/-- Scanning a row does not modify pixels of earlier rows. -/
theorem ditherRow_prev (y : ℕ) (d : Img) {x₂ y₂ : ℕ} (hx₂ : x₂ < d.width)
    (hy₂ : y₂ < y) (n : ℕ) (hn : n ≤ d.width) :
    (ditherRow y n d).getpixel x₂ y₂ = d.getpixel x₂ y₂ := by
  induction n with
  | zero => rfl
  | succ m ih =>
      unfold ditherRow
      rw [List.range_succ, List.foldl_append]
      show (ditherStep (ditherRow y m d) m y).getpixel x₂ y₂ = d.getpixel x₂ y₂
      exact (ditherStep_prev _ m y x₂ y₂ (by rw [ditherRow_width]; omega)
        (by rw [ditherRow_width]; exact hx₂) (Or.inl hy₂)).trans (ih (by omega))

/-- After scanning the first `n` pixels of row `y`, those pixels hold
one of the two output levels. -/
theorem ditherRow_two (y : ℕ) (d : Img) (hy : y < d.height)
    (hlen : d.data.length = d.width * d.height) (n : ℕ) :
    n ≤ d.width → ∀ x₂, x₂ < n →
      (ditherRow y n d).getpixel x₂ y = 0 ∨
      (ditherRow y n d).getpixel x₂ y = 255 := by
  induction n with
  | zero => intro _ x₂ hx₂; omega
  | succ m ih =>
      intro hn x₂ hx₂
      unfold ditherRow
      rw [List.range_succ, List.foldl_append]
      show (ditherStep (ditherRow y m d) m y).getpixel x₂ y = 0 ∨
        (ditherStep (ditherRow y m d) m y).getpixel x₂ y = 255
      by_cases hxm : x₂ < m
      · rw [ditherStep_prev _ m y x₂ y (by rw [ditherRow_width]; omega)
          (by rw [ditherRow_width]; omega) (Or.inr ⟨rfl, hxm⟩)]
        exact ih (by omega) x₂ hxm
      · have hx2m : x₂ = m := by omega
        subst hx2m
        rw [ditherStep_self _ x₂ y (by rw [ditherRow_width]; omega)
          (by rw [ditherRow_height]; exact hy)
          (by rw [ditherRow_length, ditherRow_width, ditherRow_height]; exact hlen)]
        split
        · exact Or.inr rfl
        · exact Or.inl rfl

/-- After processing the first `m` rows, all their pixels hold one of
the two output levels. -/
theorem ditherAll_two (img : Img)
    (hlen : img.data.length = img.width * img.height) (m : ℕ) :
    m ≤ img.height → ∀ x₂ y₂, x₂ < img.width → y₂ < m →
      ((List.range m).foldl (fun d y => ditherRow y img.width d) img).getpixel x₂ y₂ = 0 ∨
      ((List.range m).foldl (fun d y => ditherRow y img.width d) img).getpixel x₂ y₂ = 255 := by
  induction m with
  | zero => intro _ x₂ y₂ _ hy₂; omega
  | succ k ih =>
      intro hm x₂ y₂ hx₂ hy₂
      rw [List.range_succ, List.foldl_append]
      show (ditherRow k img.width ((List.range k).foldl
          (fun d y => ditherRow y img.width d) img)).getpixel x₂ y₂ = 0 ∨
        (ditherRow k img.width ((List.range k).foldl
          (fun d y => ditherRow y img.width d) img)).getpixel x₂ y₂ = 255
      by_cases hyk : y₂ < k
      · rw [ditherRow_prev k _ (by rw [ditherAll_width]; exact hx₂) hyk
          img.width (by rw [ditherAll_width])]
        exact ih (by omega) x₂ y₂ hx₂ hyk
      · have hy2k : y₂ = k := by omega
        subst hy2k
        exact ditherRow_two y₂ _ (by rw [ditherAll_height]; omega)
          (by rw [ditherAll_length, ditherAll_width, ditherAll_height]; exact hlen)
          img.width (by rw [ditherAll_width]) x₂ hx₂

/-- Dithering produces strictly two levels: every in-range pixel of
the output is pure black 0 or pure white 255. -/
theorem apply_dithering_two (img : Img)
    (hlen : img.data.length = img.width * img.height) {x y : ℕ}
    (hx : x < img.width) (hy : y < img.height) :
    (apply_dithering img).getpixel x y = 0 ∨
    (apply_dithering img).getpixel x y = 255 :=
  ditherAll_two img hlen img.height le_rfl x y hx hy

theorem set_getD_eq (l : List ℕ) (i : ℕ) (h : i < l.length) :
    l.set i (l.getD i 0) = l := by
  induction l generalizing i with
  | nil => simp at h
  | cons a t ih =>
      cases i with
      | zero => simp [List.getD]
      | succ j =>
          have hj : j < t.length := by simpa using h
          simp only [List.getD_cons_succ, List.set_cons_succ]
          rw [ih j hj]

/-- Writing back the pixel value a bitmap already holds changes
nothing. -/
theorem Img.putpixel_getpixel (d : Img) (x y : ℕ)
    (h : y * d.width + x < d.data.length) :
    d.putpixel x y (d.getpixel x y) = d := by
  cases d with
  | mk w hh data =>
      simp only [Img.putpixel, Img.getpixel, Img.mk.injEq, true_and]
      exact set_getD_eq data _ h

/-- Propagating a zero error is a no-op on a two-level bitmap. -/
theorem pushErr_zero (d : Img) (a b : ℤ)
    (hlen : d.data.length = d.width * d.height)
    (h2 : ∀ p, p < d.width → ∀ q, q < d.height →
      d.getpixel p q = 0 ∨ d.getpixel p q = 255) :
    pushErr d a b 0 = d := by
  by_cases hin : 0 ≤ a ∧ a < (d.width : ℤ) ∧ 0 ≤ b ∧ b < (d.height : ℤ)
  · simp only [pushErr, if_pos hin]
    have hp := h2 a.toNat (by omega) b.toNat (by omega)
    have hcl : clampByte ((d.getpixel a.toNat b.toNat : ℤ) + 0) =
        d.getpixel a.toNat b.toNat := by
      rcases hp with h | h <;> rw [h] <;> rfl
    rw [hcl]
    exact Img.putpixel_getpixel d a.toNat b.toNat
      (by rw [hlen]; exact flat_lt (by omega) (by omega))
  · simp only [pushErr, if_neg hin]

/-- A diffusion step is the identity on a two-level bitmap: the
threshold reproduces the pixel and the error is zero. -/
theorem ditherStep_fix (d : Img) (x y : ℕ) (hx : x < d.width)
    (hy : y < d.height) (hlen : d.data.length = d.width * d.height)
    (h2 : ∀ p, p < d.width → ∀ q, q < d.height →
      d.getpixel p q = 0 ∨ d.getpixel p q = 255) :
    ditherStep d x y = d := by
  have hold := h2 x hx y hy
  have hq : (if 127 < d.getpixel x y then (255 : ℕ) else 0) = d.getpixel x y := by
    rcases hold with h | h <;> rw [h] <;> rfl
  simp only [ditherStep, hq, sub_self, zero_mul, Int.zero_fdiv]
  rw [Img.putpixel_getpixel d x y (by rw [hlen]; exact flat_lt hx hy)]
  rw [pushErr_zero d _ _ hlen h2, pushErr_zero d _ _ hlen h2,
    pushErr_zero d _ _ hlen h2, pushErr_zero d _ _ hlen h2]

theorem ditherRow_fix (y : ℕ) (d : Img) (hy : y < d.height)
    (hlen : d.data.length = d.width * d.height)
    (h2 : ∀ p, p < d.width → ∀ q, q < d.height →
      d.getpixel p q = 0 ∨ d.getpixel p q = 255) (n : ℕ) :
    n ≤ d.width → ditherRow y n d = d := by
  induction n with
  | zero => intro _; rfl
  | succ m ih =>
      intro hn
      unfold ditherRow
      rw [List.range_succ, List.foldl_append]
      show ditherStep (ditherRow y m d) m y = d
      rw [ih (by omega)]
      exact ditherStep_fix d m y (by omega) hy hlen h2

/-- Dithering is the identity on bitmaps that are already two-level. -/
theorem apply_dithering_fix (img : Img)
    (hlen : img.data.length = img.width * img.height)
    (h2 : ∀ p, p < img.width → ∀ q, q < img.height →
      img.getpixel p q = 0 ∨ img.getpixel p q = 255) :
    apply_dithering img = img := by
  have haux : ∀ m, m ≤ img.height →
      (List.range m).foldl (fun d y => ditherRow y img.width d) img = img := by
    intro m
    induction m with
    | zero => intro _; rfl
    | succ k ih =>
        intro hm
        rw [List.range_succ, List.foldl_append]
        show ditherRow k img.width ((List.range k).foldl
          (fun d y => ditherRow y img.width d) img) = img
        rw [ih (by omega)]
        exact ditherRow_fix k img (by omega) hlen h2 img.width le_rfl
  exact haux img.height le_rfl

/-! External collaborators and the random source.  The font loader,
text measuring/drawing, rotation resampling and resize resampling are
PIL / font-library primitives outside the repository: they are oracle
parameters, and the pipeline theorems hold for every behaviour of
them.  Fallible loading is `Except`-valued: an `error` result models
the exception the source catches. -/

structure Oracles (F : Type) where
  loadTruetype : String → ℤ → Except Unit F
  loadDefault : ℤ → F
  textbbox : String → F → ℤ × ℤ × ℤ × ℤ
  drawText : Img → String → ℤ → ℤ → F → ℕ → Img
  rotate : Img → ℚ → Img
  resize : Img → ℕ → ℕ → Img

/-- Abstract deterministic random source: the three kinds of draws the
pipeline makes from the single seeded generator, as explicit state
transformers. -/
structure RandSrc (σ : Type) where
  uniform : ℚ → ℚ → σ → ℚ × σ
  randint : ℤ → ℤ → σ → ℤ × σ
  choice : ℕ → σ → ℕ × σ

/-- Mutable pipeline state across a run: the font cache of the
FontManager and the state of the seeded random generator. -/
structure GenState (σ F : Type) where
  cache : List ((String × ℤ) × F)
  rng : σ

def liberationPath : String :=
  "/usr/share/fonts/truetype/liberation/LiberationSans-Bold.ttf"

/-- FontManager._get_default_font: try the Liberation Sans path, then
arial.ttf, then the guaranteed built-in default font. -/
def getDefaultFont {F : Type} (o : Oracles F) (size : ℤ) : F :=
  match o.loadTruetype liberationPath size with
  | Except.ok f => f
  | Except.error _ =>
      match o.loadTruetype ("arial.ttf") size with
      | Except.ok f => f
      | Except.error _ => o.loadDefault size

/-- FontManager.get_font: with no resolved font paths use the default
chain; otherwise draw a random path, serve it from the cache when
present, load and cache it on a miss, and on a load failure print a
warning and fall back to the default chain. -/
def get_font {F σ : Type} (o : Oracles F) (R : RandSrc σ) (paths : List String)
    (cache : List ((String × ℤ) × F)) (size : ℤ) (s : σ) :
    F × List ((String × ℤ) × F) × List String × σ :=
  if paths.isEmpty then (getDefaultFont o size, cache, [], s)
  else
    let c := R.choice paths.length s
    let p := paths.getD (c.1 % paths.length) ""
    match cache.lookup (p, size) with
    | some f => (f, cache, [], c.2)
    | none =>
        match o.loadTruetype p size with
        | Except.ok f => (f, ((p, size), f) :: cache, [], c.2)
        | Except.error _ =>
            (getDefaultFont o size, cache,
              ["Warning: Could not load font from " ++ p], c.2)

/-- The integer offsets `-ow .. ow` of the outline stamping loops. -/
def offsetsList (ow : ℕ) : List ℤ :=
  (List.range (2 * ow + 1)).map (fun i => (i : ℤ) - ow)

/-- TextRenderer.draw_text_with_outline: stamp the text at every
nonzero offset in black, then once at the center in white. -/
def draw_text_with_outline {F : Type} (o : Oracles F) (img : Img)
    (text : String) (x y : ℤ) (font : F) (outline_width : ℕ) : Img :=
  let outlined := (offsetsList outline_width).foldl
    (fun im adj_x => (offsetsList outline_width).foldl
      (fun im adj_y =>
        if adj_x ≠ 0 ∨ adj_y ≠ 0 then
          o.drawText im text (x + adj_x) (y + adj_y) font 0
        else im) im) img
  o.drawText outlined text x y font 255

/-- TextRenderer.calculate_font_size including its own uniform draw. -/
def calculate_font_size_r {σ : Type} (R : RandSrc σ) (text : String)
    (mw mh : ℕ) (s : σ) : ℤ × σ :=
  let u := R.uniform (4/5) (6/5) s
  (calculate_font_size text mw mh u.1, u.2)

/-- TextRenderer.render_text: fresh background canvas, randomized font
size, random font, measured bounding box, centering with conditional
random offsets, outline drawing. -/
def render_text {F σ : Type} (o : Oracles F) (R : RandSrc σ)
    (paths : List String) (text : String)
    (canvas_size target_width target_height scale_factor : ℕ)
    (st : GenState σ F) : Img × GenState σ F :=
  let img := imageNew canvas_size canvas_size 255
  let fs := calculate_font_size_r R text target_width target_height st.rng
  let g := get_font o R paths st.cache fs.1 fs.2
  let font := g.1
  let bbox := o.textbbox text font
  let text_width := bbox.2.2.1 - bbox.1
  let text_height := bbox.2.2.2 - bbox.2.1
  let text_x := ((canvas_size : ℤ) - text_width).fdiv 2
  let text_y := ((canvas_size : ℤ) - text_height).fdiv 2
  let max_offset_x := max 0 (((target_width : ℤ) - text_width).fdiv 3)
  let max_offset_y := max 0 (((target_height : ℤ) - text_height).fdiv 3)
  let ox := if 0 < max_offset_x then R.randint (-max_offset_x) max_offset_x g.2.2.2
            else (0, g.2.2.2)
  let oy := if 0 < max_offset_y then R.randint (-max_offset_y) max_offset_y ox.2
            else (0, ox.2)
  let img2 := draw_text_with_outline o img text (text_x + ox.1) (text_y + oy.1)
    font (2 * scale_factor)
  (img2, ⟨g.2.1, oy.2⟩)

/-- WordGenerator.apply_rotation: a uniformly drawn angle in
[-15, 15] handed to the external rotation resampler. -/
def apply_rotation {σ : Type} (rot : Img → ℚ → Img) (R : RandSrc σ)
    (img : Img) (s : σ) : Img × σ :=
  let u := R.uniform (-15) 15 s
  (rot img u.1, u.2)

/-- ImageDistorter.apply_shear including its two uniform draws. -/
def apply_shear_r {σ : Type} (R : RandSrc σ) (image : Img) (s : σ) : Img × σ :=
  let u1 := R.uniform (-(1/4)) (1/4) s
  let u2 := R.uniform (-(3/20)) (3/20) u1.2
  (apply_shear_with u1.1 u2.1 image, u2.2)

/-- ImageDistorter.apply_fisheye including its drawn center offsets
(`-width // 6` is Python floor division of the negated size) and
strength. -/
noncomputable def apply_fisheye_r {σ : Type} (R : RandSrc σ) (image : Img)
    (s : σ) : Img × σ :=
  let c1 := R.randint ((-(image.width : ℤ)).fdiv 6) ((image.width : ℤ).fdiv 6) s
  let c2 := R.randint ((-(image.height : ℤ)).fdiv 6) ((image.height : ℤ).fdiv 6) c1.2
  let center_x : ℤ := ((image.width / 2 : ℕ) : ℤ) + c1.1
  let center_y : ℤ := ((image.height / 2 : ℕ) : ℤ) + c2.1
  let u := R.uniform (3/10) (9/10) c2.2
  (apply_fisheye_with center_x center_y u.1 image, u.2)

/-- ImageDistorter.apply_perspective including its drawn stretch and
anchor-edge choice. -/
def apply_perspective_r {σ : Type} (R : RandSrc σ) (image : Img) (s : σ) :
    Img × σ :=
  let u := R.uniform (1/20) (1/4) s
  let c := R.choice 4 u.2
  let corner := (["top", "bottom", "left", "right"] : List String).getD
    (c.1 % 4) ("top")
  (apply_perspective_with u.1 corner image, c.2)

/-- ImageDistorter.apply_distortions: shear, then fisheye, then
perspective, each only when enabled. -/
noncomputable def apply_distortions {σ : Type} (R : RandSrc σ)
    (enabled : List String) (image : Img) (s : σ) : Img × σ :=
  let r1 := if ("shear" : String) ∈ enabled then apply_shear_r R image s
            else (image, s)
  let r2 := if ("fisheye" : String) ∈ enabled then apply_fisheye_r R r1.1 r1.2
            else r1
  let r3 := if ("perspective" : String) ∈ enabled then
              apply_perspective_r R r2.1 r2.2
            else r2
  r3

/-- PIL `Image.crop((l, t, r, b))`: size `(r-l, b-t)`, pixels copied
from the source, zero-filled beyond it. -/
def cropImg (img : Img) (l t r b : ℕ) : Img :=
  mkImg (r - l) (b - t) (fun x y =>
    if l + x < img.width ∧ t + y < img.height then img.getpixel (l + x) (t + y)
    else 0)

/-- PIL `Image.paste(p, (ox, oy))` onto `base`, clipped to the base
canvas. -/
def pasteImg (base p : Img) (ox oy : ℤ) : Img :=
  mkImg base.width base.height (fun x y =>
    if ox ≤ (x : ℤ) ∧ (x : ℤ) < ox + p.width ∧ oy ≤ (y : ℤ) ∧
        (y : ℤ) < oy + p.height
    then p.getpixel ((x : ℤ) - ox).toNat ((y : ℤ) - oy).toNat
    else base.getpixel x y)

/-- PIL `ImageOps.invert` on a single-channel bitmap: `p ↦ 255 - p`.
The adjacent `convert("L")`/`convert("1")` mode changes around it act
on values already in {0, 255} and are identities on this
representation. -/
def invertImg (img : Img) : Img :=
  mkImg img.width img.height (fun x y => 255 - img.getpixel x y)

/-- WordGenerator.scale_to_target: crop to the content bounds, scale
by the smaller ratio (the resampler itself is an oracle), and paste
centered on a fresh background canvas of the exact target size. -/
def scale_to_target (W H : ℕ) (resizeO : Img → ℕ → ℕ → Img)
    (image : Img) : Img :=
  let cb := get_content_bounds image
  let cropped := cropImg image cb.1 cb.2.1 cb.2.2.1 cb.2.2.2
  let crop_width := cb.2.2.1 - cb.1
  let crop_height := cb.2.2.2 - cb.2.1
  let scale : ℚ := min ((W : ℚ) / (crop_width : ℚ)) ((H : ℚ) / (crop_height : ℚ))
  let new_width := (pyInt ((crop_width : ℚ) * scale)).toNat
  let new_height := (pyInt ((crop_height : ℚ) * scale)).toNat
  let scaled := resizeO cropped new_width new_height
  pasteImg (imageNew W H 255) scaled
    (((W : ℤ) - new_width).fdiv 2) (((H : ℤ) - new_height).fdiv 2)

/-- WordGenerator.generate: render the word on the oversized canvas,
rotate, crop to the working size, apply the enabled distortions,
recrop/rescale to the target, dither to 1 bit, and negate last when
requested. -/
noncomputable def generate {F σ : Type} (o : Oracles F) (R : RandSrc σ)
    (W H : ℕ) (negate : Bool) (enabled paths : List String)
    (word : String) (st : GenState σ F) : Img × GenState σ F :=
  let scale_factor := 4
  let large_width := W * scale_factor
  let large_height := H * scale_factor
  let canvas_size := max large_width large_height * 2
  let r1 := render_text o R paths word canvas_size large_width large_height
    scale_factor st
  let r2 := apply_rotation o.rotate R r1.1 r1.2.rng
  let left := (canvas_size - large_width) / 2
  let top := (canvas_size - large_height) / 2
  let working := cropImg r2.1 left top (left + large_width) (top + large_height)
  let r3 := apply_distortions R enabled working r2.2
  let final := scale_to_target W H o.resize r3.1
  let dithered := apply_dithering final
  let out := if negate then apply_dithering (invertImg dithered) else dithered
  (out, ⟨r1.2.cache, r3.2⟩)

/-- A full run: one `generate` call per word in order, threading the
font cache and the random state. -/
noncomputable def runWords {F σ : Type} (o : Oracles F) (R : RandSrc σ)
    (W H : ℕ) (negate : Bool) (enabled paths : List String)
    (words : List String) (st : GenState σ F) : List Img × GenState σ F :=
  words.foldl (fun acc w =>
    let r := generate o R W H negate enabled paths w acc.2
    (acc.1 ++ [r.1], r.2)) ([], st)

theorem invertImg_width (img : Img) : (invertImg img).width = img.width := rfl

theorem invertImg_height (img : Img) : (invertImg img).height = img.height := rfl

theorem invertImg_length (img : Img) :
    (invertImg img).data.length = img.width * img.height :=
  mkImg_length _ _ _

theorem invertImg_get (img : Img) {x y : ℕ} (hx : x < img.width)
    (hy : y < img.height) :
    (invertImg img).getpixel x y = 255 - img.getpixel x y :=
  mkImg_get _ hx hy

theorem scale_to_target_width (W H : ℕ) (resizeO : Img → ℕ → ℕ → Img)
    (image : Img) : (scale_to_target W H resizeO image).width = W := rfl

theorem scale_to_target_height (W H : ℕ) (resizeO : Img → ℕ → ℕ → Img)
    (image : Img) : (scale_to_target W H resizeO image).height = H := rfl

theorem scale_to_target_length (W H : ℕ) (resizeO : Img → ℕ → ℕ → Img)
    (image : Img) : (scale_to_target W H resizeO image).data.length = W * H := by
  simp only [scale_to_target, pasteImg, mkImg_length, imageNew_width,
    imageNew_height]

/-- Two bitmaps of equal full-buffer shape with equal pixels are
equal. -/
theorem Img.eq_of_getpixel {a b : Img} (hw : a.width = b.width)
    (hh : a.height = b.height) (hla : a.data.length = a.width * a.height)
    (hlb : b.data.length = b.width * b.height)
    (hp : ∀ x y, x < a.width → y < a.height →
      a.getpixel x y = b.getpixel x y) : a = b := by
  cases a with
  | mk w1 h1 d1 =>
      cases b with
      | mk w2 h2 d2 =>
          obtain rfl : w1 = w2 := hw
          obtain rfl : h1 = h2 := hh
          have hla' : d1.length = w1 * h1 := hla
          have hlb' : d2.length = w1 * h1 := hlb
          simp only [Img.mk.injEq, true_and]
          apply List.ext_getElem?
          intro k
          by_cases hk : k < w1 * h1
          · have hw0 : 0 < w1 := by
              rcases Nat.eq_zero_or_pos w1 with h0 | h0
              · subst h0; simp at hk
              · exact h0
            have hxk : k % w1 < w1 := Nat.mod_lt _ hw0
            have hyk : k / w1 < h1 := by
              refine (Nat.div_lt_iff_lt_mul hw0).2 ?_
              calc k < w1 * h1 := hk
              _ = h1 * w1 := Nat.mul_comm _ _
            have hidx : k / w1 * w1 + k % w1 = k := by
              rw [Nat.mul_comm]
              exact Nat.div_add_mod k w1
            have h1k : k < d1.length := by omega
            have h2k : k < d2.length := by omega
            have hp' := hp (k % w1) (k / w1) hxk hyk
            simp only [Img.getpixel] at hp'
            rw [hidx] at hp'
            have e1 : d1.getD k 0 = d1[k] := by
              simp [List.getD, List.get?_eq_getElem?, List.getElem?_eq_getElem h1k]
            have e2 : d2.getD k 0 = d2[k] := by
              simp [List.getD, List.get?_eq_getElem?, List.getElem?_eq_getElem h2k]
            rw [List.getElem?_eq_getElem h1k, List.getElem?_eq_getElem h2k]
            rw [← e1, ← e2, hp']
          · rw [List.getElem?_eq_none (by omega), List.getElem?_eq_none (by omega)]

/-- Double inversion restores a bitmap whose pixels fit in a byte. -/
theorem invertImg_invertImg (b : Img)
    (hlen : b.data.length = b.width * b.height)
    (h255 : ∀ p, p < b.width → ∀ q, q < b.height → b.getpixel p q ≤ 255) :
    invertImg (invertImg b) = b := by
  refine Img.eq_of_getpixel rfl rfl ?_ hlen ?_
  · rw [invertImg_length, invertImg_width, invertImg_height]
    rfl
  · intro x y hx hy
    have hx1 : x < (invertImg b).width := hx
    have hy1 : y < (invertImg b).height := hy
    rw [invertImg_get (invertImg b) hx1 hy1, invertImg_get b hx hy,
      Nat.sub_sub_self (h255 x hx y hy)]

/-- Trivial collaborators used to exercise the pipeline theorems on
concrete inputs: every loader fails, drawing and resampling return
their input unchanged. -/
def unitOracles : Oracles Unit where
  loadTruetype := fun _ _ => Except.error ()
  loadDefault := fun _ => ()
  textbbox := fun _ _ => (0, 0, 0, 0)
  drawText := fun im _ _ _ _ _ => im
  rotate := fun im _ => im
  resize := fun im _ _ => im

/-- Trivial random source: every draw returns the lower bound. -/
def unitRand : RandSrc Unit where
  uniform := fun a _ s => (a, s)
  randint := fun a _ s => (a, s)
  choice := fun _ s => (0, s)

/-- C1: for positive target dimensions fixed at pipeline construction,
`generate` returns a bitmap of exactly W by H whose pixel values are
the two levels pure black 0 and pure white 255 — for every word, every
random draw and every behaviour of the external font, drawing,
rotation and resize collaborators. -/
theorem generate_target_dims_two_level {F σ : Type} (o : Oracles F)
    (R : RandSrc σ) (W H : ℕ) (negate : Bool) (enabled paths : List String)
    (word : String) (st : GenState σ F) (hW : 0 < W) (hH : 0 < H) :
    (generate o R W H negate enabled paths word st).1.width = W ∧
    (generate o R W H negate enabled paths word st).1.height = H ∧
    ∀ x, x < W → ∀ y, y < H →
      (generate o R W H negate enabled paths word st).1.getpixel x y = 0 ∨
      (generate o R W H negate enabled paths word st).1.getpixel x y = 255 := by
  simp only [generate]
  cases negate with
  | false =>
      simp only [Bool.false_eq_true, if_false]
      refine ⟨?_, ?_, ?_⟩
      · rw [apply_dithering_width, scale_to_target_width]
      · rw [apply_dithering_height, scale_to_target_height]
      · intro x hx y hy
        exact apply_dithering_two _
          (by rw [scale_to_target_length, scale_to_target_width,
            scale_to_target_height])
          (by rw [scale_to_target_width]; exact hx)
          (by rw [scale_to_target_height]; exact hy)
  | true =>
      simp only [if_true]
      refine ⟨?_, ?_, ?_⟩
      · rw [apply_dithering_width, invertImg_width, apply_dithering_width,
          scale_to_target_width]
      · rw [apply_dithering_height, invertImg_height, apply_dithering_height,
          scale_to_target_height]
      · intro x hx y hy
        exact apply_dithering_two _
          (by rw [invertImg_length, invertImg_width, invertImg_height])
          (by rw [invertImg_width, apply_dithering_width,
            scale_to_target_width]; exact hx)
          (by rw [invertImg_height, apply_dithering_height,
            scale_to_target_height]; exact hy)

/-- Witness for C1 at concrete parameters and trivial collaborators. -/
theorem generate_target_dims_two_level_witness :
    (generate unitOracles unitRand 2 1 false [] [] ("A") ⟨[], ()⟩).1.width = 2 ∧
    (generate unitOracles unitRand 2 1 false [] [] ("A") ⟨[], ()⟩).1.height = 1 ∧
    ((generate unitOracles unitRand 2 1 false [] [] ("A") ⟨[], ()⟩).1.getpixel 0 0 = 0 ∨
     (generate unitOracles unitRand 2 1 false [] [] ("A") ⟨[], ()⟩).1.getpixel 0 0 = 255) := by
  obtain ⟨h1, h2, h3⟩ := generate_target_dims_two_level unitOracles unitRand
    2 1 false [] [] ("A") ⟨[], ()⟩ (by decide) (by decide)
  exact ⟨h1, h2, h3 0 (by decide) 0 (by decide)⟩

/-- C2: color negation is applied strictly after dithering — a
negated run equals the plain run with one extra invert-then-redither
stage bolted onto its dithered output, with identical random state —
and on any two-level bitmap that final stage is exactly the bitwise
complement `p ↦ 255 - p`, and applying it twice restores the original
bitmap. -/
theorem negation_after_dithering_involution {F σ : Type} (o : Oracles F)
    (R : RandSrc σ) (W H : ℕ) (enabled paths : List String) (word : String)
    (st : GenState σ F) :
    (generate o R W H true enabled paths word st =
      (apply_dithering (invertImg
        (generate o R W H false enabled paths word st).1),
       (generate o R W H false enabled paths word st).2)) ∧
    (∀ b : Img, b.data.length = b.width * b.height →
      (∀ p, p < b.width → ∀ q, q < b.height →
        b.getpixel p q = 0 ∨ b.getpixel p q = 255) →
      apply_dithering (invertImg b) = invertImg b ∧
      (∀ p, p < b.width → ∀ q, q < b.height →
        (apply_dithering (invertImg b)).getpixel p q = 255 - b.getpixel p q) ∧
      apply_dithering (invertImg (apply_dithering (invertImg b))) = b) := by
  constructor
  · rfl
  · intro b hlen h2
    have hlen2 : (invertImg b).data.length =
        (invertImg b).width * (invertImg b).height := by
      rw [invertImg_length]
      rfl
    have h2inv : ∀ p, p < (invertImg b).width → ∀ q, q < (invertImg b).height →
        (invertImg b).getpixel p q = 0 ∨ (invertImg b).getpixel p q = 255 := by
      intro p hp q hq
      rw [invertImg_get b hp hq]
      rcases h2 p hp q hq with h | h <;> rw [h]
      · right; rfl
      · left; rfl
    have hfix := apply_dithering_fix (invertImg b) hlen2 h2inv
    refine ⟨hfix, ?_, ?_⟩
    · intro p hp q hq
      rw [hfix, invertImg_get b hp hq]
    · rw [hfix]
      have h255 : ∀ p, p < b.width → ∀ q, q < b.height →
          b.getpixel p q ≤ 255 := by
        intro p hp q hq
        rcases h2 p hp q hq with h | h <;> omega
      rw [invertImg_invertImg b hlen h255]
      exact apply_dithering_fix b hlen h2

/-- Witness for C2: the negation stage complements and twice restores
a concrete two-level bitmap, and the structural equality holds at
concrete parameters. -/
theorem negation_after_dithering_involution_witness :
    apply_dithering (invertImg (Img.mk 2 1 [0, 255])) =
      invertImg (Img.mk 2 1 [0, 255]) ∧
    apply_dithering (invertImg (apply_dithering
      (invertImg (Img.mk 2 1 [0, 255])))) = Img.mk 2 1 [0, 255] ∧
    generate unitOracles unitRand 1 1 true [] [] ("A") ⟨[], ()⟩ =
      (apply_dithering (invertImg
        (generate unitOracles unitRand 1 1 false [] [] ("A") ⟨[], ()⟩).1),
       (generate unitOracles unitRand 1 1 false [] [] ("A") ⟨[], ()⟩).2) := by
  have h := negation_after_dithering_involution unitOracles unitRand 1 1
    [] [] ("A") ⟨[], ()⟩
  have hb := h.2 (Img.mk 2 1 [0, 255]) (by decide) (by decide)
  exact ⟨hb.1, hb.2.2, h.1⟩

/-- C8: with the same seed (hence the same initial random state), the
same construction parameters, the same starting cache and the same
ordered word sequence, two runs produce identical output bitmap
sequences and identical final states.  All randomness is threaded
explicitly from the single seeded generator, so the run is a pure
function of seed and inputs. -/
theorem run_determinism {F σ : Type} (o : Oracles F) (R : RandSrc σ)
    (seedInit : ℤ → σ) (W H : ℕ) (negate : Bool)
    (enabled paths : List String) (cache : List ((String × ℤ) × F))
    (seed₁ seed₂ : ℤ) (words₁ words₂ : List String)
    (hs : seed₁ = seed₂) (hw : words₁ = words₂) :
    runWords o R W H negate enabled paths words₁ ⟨cache, seedInit seed₁⟩ =
    runWords o R W H negate enabled paths words₂ ⟨cache, seedInit seed₂⟩ := by
  subst hs
  subst hw
  rfl

/-- Witness for C8 at a concrete seed and word list. -/
theorem run_determinism_witness :
    runWords unitOracles unitRand 1 1 false [] [] (["POW"])
      ⟨[], (fun _ : ℤ => ()) 7⟩ =
    runWords unitOracles unitRand 1 1 false [] [] (["POW"])
      ⟨[], (fun _ : ℤ => ()) 7⟩ :=
  run_determinism unitOracles unitRand (fun _ => ()) 1 1 false [] [] []
    7 7 (["POW"]) (["POW"]) rfl rfl

/-- The default-font chain always produces a handle: the Liberation
load, else the arial load, else the guaranteed built-in font. -/
theorem getDefaultFont_chain {F : Type} (o : Oracles F) (size : ℤ) :
    o.loadTruetype liberationPath size = Except.ok (getDefaultFont o size) ∨
    o.loadTruetype ("arial.ttf") size = Except.ok (getDefaultFont o size) ∨
    getDefaultFont o size = o.loadDefault size := by
  cases hlib : o.loadTruetype liberationPath size with
  | ok f => exact Or.inl (by simp only [getDefaultFont, hlib])
  | error e =>
      cases har : o.loadTruetype ("arial.ttf") size with
      | ok f => exact Or.inr (Or.inl (by simp only [getDefaultFont, hlib, har]))
      | error e2 => exact Or.inr (Or.inr (by simp only [getDefaultFont, hlib, har]))

/-- C9: `get_font` never raises past the FontProvider boundary.  With
fallible loaders modelled as `Except`-valued oracles (an error is the
exception class the source catches), the function always returns a
plain result: a usable handle together with the updated cache, a
warning list that is non-empty exactly on the named-font load-failure
path, and the advanced random state.  The handle is a cached handle
for a configured path, a freshly loaded handle for a configured path,
or the default-chain handle; and the default chain itself resolves to
the Liberation font, arial, or the guaranteed built-in font. -/
theorem get_font_total_fallback {F σ : Type} (o : Oracles F) (R : RandSrc σ)
    (paths : List String) (cache : List ((String × ℤ) × F)) (size : ℤ)
    (s : σ) :
    ∃ f cache2 warns s2,
      get_font o R paths cache size s = (f, cache2, warns, s2) ∧
      ((∃ p, p ∈ paths ∧ List.lookup (p, size) cache = some f ∧ warns = []) ∨
       (∃ p, p ∈ paths ∧ o.loadTruetype p size = Except.ok f ∧ warns = []) ∨
       f = getDefaultFont o size) ∧
      (o.loadTruetype liberationPath size = Except.ok (getDefaultFont o size) ∨
       o.loadTruetype ("arial.ttf") size = Except.ok (getDefaultFont o size) ∨
       getDefaultFont o size = o.loadDefault size) := by
  by_cases hp : paths.isEmpty = true
  · exact ⟨getDefaultFont o size, cache, [], s,
      by simp only [get_font, if_pos hp], Or.inr (Or.inr rfl),
      getDefaultFont_chain o size⟩
  · have hne : paths ≠ [] := by
      intro h0
      subst h0
      exact hp rfl
    have hlen0 : 0 < paths.length := List.length_pos.2 hne
    have hidx : (R.choice paths.length s).1 % paths.length < paths.length :=
      Nat.mod_lt _ hlen0
    have hmem : paths.getD ((R.choice paths.length s).1 % paths.length) "" ∈
        paths := by
      simp only [List.getD, List.get?_eq_getElem?,
        List.getElem?_eq_getElem hidx, Option.getD_some]
      exact List.getElem_mem _
    cases hc : List.lookup
        (paths.getD ((R.choice paths.length s).1 % paths.length) "", size)
        cache with
    | some f =>
        refine ⟨f, cache, [], (R.choice paths.length s).2, ?_, ?_,
          getDefaultFont_chain o size⟩
        · simp only [get_font, if_neg hp, hc]
        · exact Or.inl ⟨_, hmem, hc, rfl⟩
    | none =>
        cases hload : o.loadTruetype
            (paths.getD ((R.choice paths.length s).1 % paths.length) "")
            size with
        | ok f =>
            refine ⟨f,
              ((paths.getD ((R.choice paths.length s).1 % paths.length) "",
                size), f) :: cache,
              [], (R.choice paths.length s).2, ?_, ?_,
              getDefaultFont_chain o size⟩
            · simp only [get_font, if_neg hp, hc, hload]
            · exact Or.inr (Or.inl ⟨_, hmem, hload, rfl⟩)
        | error e =>
            refine ⟨getDefaultFont o size, cache,
              ["Warning: Could not load font from " ++
                paths.getD ((R.choice paths.length s).1 % paths.length) ""],
              (R.choice paths.length s).2, ?_, Or.inr (Or.inr rfl),
              getDefaultFont_chain o size⟩
            simp only [get_font, if_neg hp, hc, hload]
